import Mathlib

/-!
Shallow embedding of `swap_cache` (src/src/lib.rs): a fixed-capacity
key/value cache with ring-based approximate-LRU eviction.  The Rust code
is translated into executable Lean functions; `usize` values become `Nat`,
fallible operations (index-out-of-bounds panics, subtraction underflow)
become `Option`-valued functions returning `none` where Rust panics.
-/

/-- CacheEntry from src/src/lib.rs: a key, a value, and the entry's current
position in the ring. -/
structure CacheEntry (K V : Type) where
  key : K
  value : V
  index : Nat
deriving Repr

/-- DEFAULT_MOVE constant from src/src/lib.rs. -/
def DEFAULT_MOVE : Nat := 50

/-- Lru from src/src/lib.rs.  The source type is generic (`Lru<K>`) but is
only ever instantiated at `K = usize` by `SwapCache`, so the ring is
modelled directly as a list of slot numbers. -/
structure Lru where
  ring : List Nat
  top : Nat
  max_pointer : Nat
  move_ratio : Nat
  min_update_distance : Nat
  min_update_limit : Nat
  long_distance : Nat
deriving Repr

/-- Lru::set_min_update_limit from src/src/lib.rs.  The subtraction cannot
underflow while `move_ratio <= 100`, which holds in every reachable state;
`Nat` truncated subtraction agrees with `usize` there. -/
def Lru.set_min_update_limit (l : Lru) : Lru :=
  { l with min_update_limit :=
      1 + l.max_pointer - (l.max_pointer * l.move_ratio) / 100 }

/-- SwapCache from src/src/lib.rs.  The `hashbrown::HashMap` key-to-slot
mapping is modelled as an association list; `mapInsert` overwrites and
`mapRemove` deletes, matching the HashMap operations the source uses
(`contains_key`, `get`, `insert`, `remove`).  The source never iterates
over the map, so representation order is unobservable. -/
structure SwapCache (K V : Type) where
  mapping : List (K × Nat)
  lru : Lru
  entries : List (CacheEntry K V)
deriving Repr

/-- Lookup in the association-list model of the HashMap. -/
def mapLookup {K : Type} [DecidableEq K] : List (K × Nat) → K → Option Nat
  | [], _ => none
  | (k', s) :: rest, k => if k = k' then some s else mapLookup rest k

/-- HashMap::remove on the association-list model (removes every pair with
the given key; with distinct stored keys this is ordinary deletion). -/
def mapRemove {K : Type} [DecidableEq K] : List (K × Nat) → K → List (K × Nat)
  | [], _ => []
  | (k', s) :: rest, k =>
      if k = k' then mapRemove rest k else (k', s) :: mapRemove rest k

/-- HashMap::insert on the association-list model (overwrites any previous
binding of the key). -/
def mapInsert {K : Type} [DecidableEq K] (m : List (K × Nat)) (k : K) (s : Nat) :
    List (K × Nat) :=
  (k, s) :: mapRemove m k

/-- HashMap::contains_key on the association-list model. -/
def mapContains {K : Type} [DecidableEq K] (m : List (K × Nat)) (k : K) : Bool :=
  (mapLookup m k).isSome

/-- Bounds-checked list write: Rust `v[i] = x` panics when `i` is out of
bounds, so the model returns `none` there instead of silently ignoring
the write. -/
def listSetChecked {α : Type} (l : List α) (i : Nat) (a : α) : Option (List α) :=
  if i < l.length then some (l.set i a) else none

/-- SwapCache::new from src/src/lib.rs.  The source computes
`max_pointer: size - 1` on `usize` without checking `size`; for `size = 0`
that subtraction underflows (a panic in debug builds), modelled by
returning `none`.  No explicit configuration error is reported. -/
def SwapCache.new (K V : Type) [DecidableEq K] (size : Nat) :
    Option (SwapCache K V) :=
  if size = 0 then none
  else
    let cache : SwapCache K V :=
      { mapping := []
        lru :=
          { ring := []
            top := 0
            max_pointer := size - 1
            move_ratio := DEFAULT_MOVE
            min_update_distance := (size * DEFAULT_MOVE) / 100
            min_update_limit := 0
            long_distance := size / 4 }
        entries := [] }
    some { cache with lru := cache.lru.set_min_update_limit }

/-- Shared tail of SwapCache::put from src/src/lib.rs: insert the key into
the mapping, advance `top`, wrapping it to 0 past `max_pointer`. -/
def putFinish {K V : Type} [DecidableEq K] (c : SwapCache K V) (key : K)
    (slot : Nat) : SwapCache K V :=
  let c1 := { c with mapping := mapInsert c.mapping key slot }
  let top := c1.lru.top + 1
  { c1 with lru :=
      { c1.lru with top := if top > c1.lru.max_pointer then 0 else top } }

/-- SwapCache::put from src/src/lib.rs.  Returns `none` exactly where the
Rust code would panic on an out-of-bounds index (never in a reachable
state). -/
def SwapCache.put {K V : Type} [DecidableEq K] (c : SwapCache K V) (key : K)
    (value : V) : Option (SwapCache K V) :=
  if mapContains c.mapping key then some c
  else if c.lru.ring.length ≤ c.lru.top then
    let slot := c.entries.length
    let c1 : SwapCache K V :=
      { c with
        entries := c.entries ++ [⟨key, value, slot⟩]
        lru := { c.lru with ring := c.lru.ring ++ [slot] } }
    some (putFinish c1 key slot)
  else
    match c.lru.ring[c.lru.top]? with
    | none => none
    | some slot =>
      match c.entries[slot]? with
      | none => none
      | some old =>
        let c1 : SwapCache K V :=
          { c with
            mapping := mapRemove c.mapping old.key
            entries := c.entries.set slot ⟨key, value, c.lru.top⟩ }
        let c2 : SwapCache K V :=
          if c1.lru.min_update_distance > c1.lru.move_ratio / 100 then
            { c1 with lru :=
                { c1.lru with
                  min_update_distance := c1.lru.min_update_distance - 1 } }
          else c1
        some (putFinish c2 key slot)

/-- Ring-walk loop of SwapCache::update (src/src/lib.rs lines 156-175).
One recursive step per loop iteration: compute the destination
`next_index` (wrapping by subtracting `max_pointer` once when the sum
reaches it), displace the slot found there back to `currnet_index`, and
continue while `move_distance > steep_size`.  Returns the updated ring
and entries, the final position, and the number of iterations performed.
`fuel` only ensures structural termination: the caller passes
`move_distance + 1`, which is never exhausted because `steep_size >= 1`
strictly decreases `move_distance` at every recursive call.  `none`
models a Rust index-out-of-bounds panic (or fuel exhaustion, which is
unreachable from `update`). -/
def walkLoop {K V : Type} (fuel : Nat) (ring : List Nat)
    (entries : List (CacheEntry K V)) (currnet_index move_distance steep_size
    max_pointer : Nat) :
    Option (List Nat × List (CacheEntry K V) × Nat × Nat) :=
  match fuel with
  | 0 => none
  | fuel + 1 =>
    let sum := currnet_index + steep_size
    let next_index := if sum ≥ max_pointer then sum - max_pointer else sum
    match ring[next_index]? with
    | none => none
    | some demoted =>
      match entries[demoted]? with
      | none => none
      | some de =>
        let entries1 := entries.set demoted { de with index := currnet_index }
        match listSetChecked ring currnet_index demoted with
        | none => none
        | some ring1 =>
          if move_distance > steep_size then
            match walkLoop fuel ring1 entries1 next_index
                (move_distance - steep_size) steep_size max_pointer with
            | none => none
            | some (r, e, fin, iters) => some (r, e, fin, iters + 1)
          else some (ring1, entries1, next_index, 1)

/-- Adaptive-tuning tail of SwapCache::update (src/src/lib.rs lines
177-187): bump `min_update_distance` while below `min_update_limit`, then
move `move_ratio` down (short promotion) or up (long promotion),
recomputing `min_update_limit` whenever `move_ratio` changed. -/
def updTuning (lru : Lru) (distance : Nat) : Lru :=
  let lru2 :=
    if lru.min_update_distance < lru.min_update_limit then
      { lru with min_update_distance := lru.min_update_distance + 1 }
    else lru
  if distance < lru2.long_distance ∧ 1 ≤ lru2.move_ratio then
    Lru.set_min_update_limit { lru2 with move_ratio := lru2.move_ratio - 1 }
  else if lru2.move_ratio < 99 then
    Lru.set_min_update_limit { lru2 with move_ratio := lru2.move_ratio + 1 }
  else lru2

/-- SwapCache::update from src/src/lib.rs.  Returns the state after the
call, the value found (`none` on a missing key, with the state unchanged),
and the number of ring-walk iterations performed (0 on a miss or on the
`distance <= min_update_distance` fast path).  The whole result is `none`
exactly where Rust panics on an out-of-bounds index. -/
def SwapCache.update {K V : Type} [DecidableEq K] (c : SwapCache K V) (key : K)
    (count : Nat) : Option (SwapCache K V × Option V × Nat) :=
  match mapLookup c.mapping key with
  | none => some (c, none, 0)
  | some slot =>
    match c.entries[slot]? with
    | none => none
    | some e =>
      let currnet_index := e.index
      let distance :=
        if currnet_index ≤ c.lru.top then c.lru.top - currnet_index
        else c.lru.top + c.lru.max_pointer - currnet_index
      if distance ≤ c.lru.min_update_distance then some (c, some e.value, 0)
      else
        let move_distance := (distance * c.lru.move_ratio) / 100
        let steep_size := max (move_distance / count) 1
        match walkLoop (move_distance + 1) c.lru.ring c.entries currnet_index
            move_distance steep_size c.lru.max_pointer with
        | none => none
        | some (ring1, entries1, next_index, iters) =>
          let lru3 := updTuning { c.lru with ring := ring1 } distance
          match entries1[slot]? with
          | none => none
          | some e2 =>
            let entries2 := entries1.set slot { e2 with index := next_index }
            match listSetChecked ring1 next_index slot with
            | none => none
            | some ring2 =>
              some ({ c with
                        mapping := c.mapping
                        lru := { lru3 with ring := ring2 }
                        entries := entries2 },
                    some e2.value, iters)

/-- SwapCache::get from src/src/lib.rs: `update` with the hardcoded step
budget 10, returning the value of the (possibly relocated) entry. -/
def SwapCache.get {K V : Type} [DecidableEq K] (c : SwapCache K V) (key : K) :
    Option (SwapCache K V × Option V) :=
  match c.update key 10 with
  | none => none
  | some (c1, v, _) => some (c1, v)

/-- One cache operation, for describing operation sequences. -/
inductive CacheOp (K V : Type) where
  | putOp (k : K) (v : V)
  | getOp (k : K)

/-- Apply one operation; `none` models a Rust panic. -/
def runOp {K V : Type} [DecidableEq K] (c : SwapCache K V) :
    CacheOp K V → Option (SwapCache K V)
  | .putOp k v => c.put k v
  | .getOp k =>
    match c.get k with
    | none => none
    | some (c1, _) => some c1

/-- Apply a sequence of operations from a given state. -/
def runOps {K V : Type} [DecidableEq K] (c : SwapCache K V) :
    List (CacheOp K V) → Option (SwapCache K V)
  | [] => some c
  | op :: rest =>
    match runOp c op with
    | none => none
    | some c1 => runOps c1 rest

/-- States reachable from a freshly constructed cache of the given capacity
by put/get operations that complete without a panic. -/
inductive Reach (K V : Type) [DecidableEq K] (capacity : Nat) :
    SwapCache K V → Prop where
  | init (s : SwapCache K V) : SwapCache.new K V capacity = some s → Reach K V capacity s
  | step (s s' : SwapCache K V) (op : CacheOp K V) :
      Reach K V capacity s → runOp s op = some s' → Reach K V capacity s'

/-!
Concrete operation traces, encoded as `(tag, key)` pairs: tag 0 is
`put key key`, tag 1 is `get key`.  Encoded numerically because they are
long; `decodeOps` turns them into operation lists.
-/

/-- Decode a numeric trace into cache operations: `(0, k)` is `put k k`,
`(1, k)` is `get k`. -/
def decodeOps (l : List (Nat × Nat)) : List (CacheOp Nat Nat) :=
  l.map (fun p => if p.1 = 0 then CacheOp.putOp p.2 p.2 else CacheOp.getOp p.2)

/-- Operation trace on a capacity-8 cache driving `move_ratio` down to 0:
fill, decay `min_update_distance` to 0 by evictions, then alternate
distance-1 promotions (each decrements `move_ratio`) with evicting puts. -/
def ratioZeroCodes : List (Nat × Nat) := [(0, 0), (0, 1), (0, 2), (0, 3), (0, 4), (0, 5), (0, 6), (0, 7), (0, 8), (0, 9), (0, 10), (0, 11), (1, 11), (0, 12), (1, 12), (0, 13), (1, 13), (0, 14), (1, 14), (0, 15), (1, 8), (0, 16), (1, 16), (0, 17), (1, 17), (0, 18), (1, 18), (0, 19), (1, 19), (0, 20), (1, 20), (0, 21), (1, 21), (0, 22), (1, 22), (0, 23), (1, 9), (0, 24), (1, 24), (0, 25), (1, 25), (0, 26), (1, 26), (0, 27), (1, 27), (0, 28), (1, 28), (0, 29), (1, 29), (0, 30), (1, 30), (0, 31), (1, 10), (0, 32), (1, 32), (0, 33), (1, 33), (0, 34), (1, 34), (0, 35), (1, 35), (0, 36), (1, 36), (0, 37), (1, 37), (0, 38), (1, 38), (0, 39), (1, 4), (0, 40), (1, 40), (0, 41), (1, 41), (0, 42), (1, 42), (0, 43), (1, 43), (0, 44), (1, 44), (0, 45), (1, 45), (0, 46), (1, 46), (0, 47), (1, 5), (0, 48), (1, 48), (0, 49), (1, 49), (0, 50), (1, 50), (0, 51), (1, 51), (0, 52), (1, 52), (0, 53), (1, 53), (0, 54), (1, 54), (0, 55), (1, 6), (0, 56), (1, 56), (0, 57), (1, 57), (0, 58), (1, 58), (0, 59), (1, 59), (0, 60), (1, 60)]

/-- Operation trace filling a capacity-40 cache; the subsequent `get` of
key 5 (ring distance 34 from `top`) walks 17 ring iterations. -/
def walkIterCodes : List (Nat × Nat) := [(0, 0), (0, 1), (0, 2), (0, 3), (0, 4), (0, 5), (0, 6), (0, 7), (0, 8), (0, 9), (0, 10), (0, 11), (0, 12), (0, 13), (0, 14), (0, 15), (0, 16), (0, 17), (0, 18), (0, 19), (0, 20), (0, 21), (0, 22), (0, 23), (0, 24), (0, 25), (0, 26), (0, 27), (0, 28), (0, 29), (0, 30), (0, 31), (0, 32), (0, 33), (0, 34), (0, 35), (0, 36), (0, 37), (0, 38), (0, 39)]

/-- Operation trace on a capacity-10 cache: fill, then six promotions of
the key at ring position 1; the sixth raises `move_ratio` from 55 to 56,
recomputing `min_update_limit` to 5 while `min_update_distance` is 6. -/
def mudLimitCodes : List (Nat × Nat) := [(0, 0), (0, 1), (0, 2), (0, 3), (0, 4), (0, 5), (0, 6), (0, 7), (0, 8), (0, 9), (1, 1), (1, 2), (1, 3), (1, 4), (1, 5), (1, 1)]

/-- Operation trace on a capacity-60 cache that leaves the ring partially
filled (55 of 60 slots) with `move_ratio` driven up to 93; the next `get`
of key 27 computes a walk destination of 55, out of bounds for the
55-element ring. -/
def oobCodes : List (Nat × Nat) := [(0, 0), (0, 1), (0, 2), (0, 3), (0, 4), (0, 5), (0, 6), (0, 7), (0, 8), (0, 9), (0, 10), (0, 11), (0, 12), (0, 13), (0, 14), (0, 15), (0, 16), (0, 17), (0, 18), (0, 19), (0, 20), (0, 21), (0, 22), (0, 23), (0, 24), (0, 25), (0, 26), (0, 27), (0, 28), (0, 29), (0, 30), (0, 31), (0, 32), (1, 0), (0, 33), (1, 1), (0, 34), (1, 2), (1, 5), (1, 4), (1, 3), (1, 6), (0, 35), (1, 7), (1, 10), (1, 13), (1, 8), (1, 14), (0, 36), (0, 37), (1, 15), (1, 16), (1, 9), (0, 38), (1, 1), (0, 39), (0, 40), (1, 17), (1, 12), (0, 41), (1, 19), (1, 4), (1, 0), (1, 6), (0, 42), (0, 43), (1, 5), (0, 44), (1, 2), (1, 20), (0, 45), (1, 8), (0, 46), (1, 13), (1, 18), (1, 21), (1, 3), (0, 47), (0, 48), (1, 10), (1, 7), (1, 16), (0, 49), (1, 23), (1, 24), (0, 50), (0, 51), (1, 1), (1, 15), (1, 14), (0, 52), (0, 53), (1, 17), (1, 22), (1, 29), (1, 28), (1, 11), (0, 54)]

/-- The `move_ratio` of the state reached by `ratioZeroCodes` (wrapped in
`Option`: `none` would mean some operation panicked). -/
def ratioZeroResult : Option Nat :=
  match SwapCache.new Nat Nat 8 with
  | none => none
  | some s0 =>
    match runOps s0 (decodeOps ratioZeroCodes) with
    | none => none
    | some s => some s.lru.move_ratio

/-- After `walkIterCodes`, update key 5 with the step budget 10 that `get`
uses and report whether a value was found together with the number of
ring-walk iterations performed. -/
def walkIterResult : Option (Bool × Nat) :=
  match SwapCache.new Nat Nat 40 with
  | none => none
  | some s0 =>
    match runOps s0 (decodeOps walkIterCodes) with
    | none => none
    | some s =>
      match s.update 5 10 with
      | none => none
      | some (_, v, iters) => some (v.isSome, iters)

/-- The pair `(min_update_distance, min_update_limit)` of the state
reached by `mudLimitCodes`. -/
def mudLimitResult : Option (Nat × Nat) :=
  match SwapCache.new Nat Nat 10 with
  | none => none
  | some s0 =>
    match runOps s0 (decodeOps mudLimitCodes) with
    | none => none
    | some s => some (s.lru.min_update_distance, s.lru.min_update_limit)

/-- After `oobCodes`, report whether key 27 is present in the mapping and
whether `update` on it (as invoked by `get`) hits an out-of-bounds panic. -/
def oobResult : Option (Bool × Bool) :=
  match SwapCache.new Nat Nat 60 with
  | none => none
  | some s0 =>
    match runOps s0 (decodeOps oobCodes) with
    | none => none
    | some s => some ((mapLookup s.mapping 27).isSome, (s.update 27 10).isNone)

/-- Spec section 8 hot-key scenario: capacity 20, insert keys
`Char.ofNat (97 + i)` (that is, `a`..`z`) with values 0-25, call
`get (Char.ofNat 97)` after each put; finally read `get` of the first and the
seventh key.  Returns the two final lookup results. -/
def hotKeyResult : Option (Option Nat × Option Nat) :=
  match SwapCache.new Char Nat 20 with
  | none => none
  | some s0 =>
    match runOps s0 (((List.range 26).map (fun i =>
        [CacheOp.putOp (Char.ofNat (97 + i)) i,
         CacheOp.getOp (Char.ofNat 97)])).flatten) with
    | none => none
    | some s =>
      match s.get (Char.ofNat 97) with
      | none => none
      | some (s1, va) =>
        match s1.get (Char.ofNat 103) with
        | none => none
        | some (_, vg) => some (va, vg)

/-! ### Helper lemmas about the association-list map and list writes -/

theorem mapLookup_mapRemove {K : Type} [DecidableEq K] (m : List (K × Nat))
    (k k' : K) :
    mapLookup (mapRemove m k) k' = if k' = k then none else mapLookup m k' := by
  induction m with
  | nil => simp only [mapRemove, mapLookup]; split <;> rfl
  | cons p rest ih =>
    obtain ⟨a, s⟩ := p
    by_cases h1 : k = a
    · subst h1
      have hrw : mapRemove ((k, s) :: rest) k = mapRemove rest k := by
        simp [mapRemove]
      rw [hrw, ih]
      by_cases h2 : k' = k
      · simp [h2]
      · simp [h2, mapLookup]
    · have hrw : mapRemove ((a, s) :: rest) k = (a, s) :: mapRemove rest k := by
        simp [mapRemove, h1]
      rw [hrw]
      by_cases h2 : k' = a
      · subst h2
        have h3 : ¬ k' = k := fun hh => h1 hh.symm
        simp [mapLookup, h3]
      · simp [mapLookup, h2, ih]

theorem mapLookup_mapRemove_self {K : Type} [DecidableEq K] (m : List (K × Nat))
    (k : K) : mapLookup (mapRemove m k) k = none := by
  simp [mapLookup_mapRemove]

theorem mapLookup_mapRemove_ne {K : Type} [DecidableEq K] (m : List (K × Nat))
    (k k' : K) (h : k' ≠ k) :
    mapLookup (mapRemove m k) k' = mapLookup m k' := by
  simp [mapLookup_mapRemove, h]

theorem mapLookup_mapInsert {K : Type} [DecidableEq K] (m : List (K × Nat))
    (k k' : K) (s : Nat) :
    mapLookup (mapInsert m k s) k' =
      if k' = k then some s else mapLookup m k' := by
  by_cases h : k' = k
  · simp [mapInsert, mapLookup, h]
  · simp [mapInsert, mapLookup, h, mapLookup_mapRemove_ne m k k' h]

theorem mapLookup_eq_none_iff {K : Type} [DecidableEq K] (m : List (K × Nat))
    (k : K) : mapLookup m k = none ↔ k ∉ m.map Prod.fst := by
  induction m with
  | nil => simp [mapLookup]
  | cons p rest ih =>
    obtain ⟨a, s⟩ := p
    by_cases h : k = a
    · subst h; simp [mapLookup]
    · simp [mapLookup, h, ih]

theorem mapRemove_absent {K : Type} [DecidableEq K] (m : List (K × Nat))
    (k : K) (h : mapLookup m k = none) : mapRemove m k = m := by
  induction m with
  | nil => rfl
  | cons p rest ih =>
    obtain ⟨a, s⟩ := p
    by_cases h1 : k = a
    · subst h1; simp [mapLookup] at h
    · simp only [mapLookup, if_neg h1] at h
      simp [mapRemove, h1, ih h]

theorem mapRemove_eq_filter {K : Type} [DecidableEq K] (m : List (K × Nat))
    (k : K) : mapRemove m k = m.filter (fun p => !(decide (k = p.1))) := by
  induction m with
  | nil => rfl
  | cons p rest ih =>
    obtain ⟨a, s⟩ := p
    by_cases h1 : k = a
    · subst h1; simp [mapRemove, List.filter, ih]
    · simp [mapRemove, List.filter, h1, ih]

theorem nodup_map_fst_mapRemove {K : Type} [DecidableEq K]
    (m : List (K × Nat)) (k : K) (h : (m.map Prod.fst).Nodup) :
    ((mapRemove m k).map Prod.fst).Nodup := by
  rw [mapRemove_eq_filter]
  exact h.sublist (List.Sublist.map Prod.fst (List.filter_sublist m))

theorem nodup_map_fst_mapInsert {K : Type} [DecidableEq K]
    (m : List (K × Nat)) (k : K) (s : Nat) (h : (m.map Prod.fst).Nodup) :
    ((mapInsert m k s).map Prod.fst).Nodup := by
  simp only [mapInsert, List.map_cons, List.nodup_cons]
  refine ⟨?_, nodup_map_fst_mapRemove m k h⟩
  exact (mapLookup_eq_none_iff (mapRemove m k) k).1 (mapLookup_mapRemove_self m k)

theorem length_mapRemove_present {K : Type} [DecidableEq K]
    (m : List (K × Nat)) (k : K) (sl : Nat)
    (hnd : (m.map Prod.fst).Nodup) (h : mapLookup m k = some sl) :
    (mapRemove m k).length + 1 = m.length := by
  induction m with
  | nil => simp [mapLookup] at h
  | cons p rest ih =>
    obtain ⟨a, s⟩ := p
    simp only [List.map_cons, List.nodup_cons] at hnd
    by_cases h1 : k = a
    · subst h1
      have habs : mapLookup rest k = none :=
        (mapLookup_eq_none_iff rest k).2 hnd.1
      simp [mapRemove, mapRemove_absent rest k habs]
    · simp only [mapLookup, if_neg h1] at h
      simp [mapRemove, h1, ih hnd.2 h]

theorem getElem?_some_lt {α : Type} {l : List α} {i : Nat} {a : α}
    (h : l[i]? = some a) : i < l.length :=
  (List.getElem?_eq_some.mp h).1

theorem listSet_self {α : Type} {l : List α} {i : Nat} {a : α}
    (h : l[i]? = some a) : l.set i a = l := by
  induction l generalizing i with
  | nil => simp at h
  | cons b rest ih =>
    cases i with
    | zero => simp at h; simp [List.set, h]
    | succ j => simp at h; simp [List.set, ih h]

theorem listSetChecked_of_lt {α : Type} {l : List α} {i : Nat} (a : α)
    (h : i < l.length) : listSetChecked l i a = some (l.set i a) := by
  simp [listSetChecked, h]

theorem listSetChecked_some {α : Type} {l l' : List α} {i : Nat} {a : α}
    (h : listSetChecked l i a = some l') :
    i < l.length ∧ l' = l.set i a := by
  by_cases h1 : i < l.length
  · rw [listSetChecked_of_lt a h1] at h
    exact ⟨h1, (Option.some.inj h).symm⟩
  · simp [listSetChecked, h1] at h

theorem nodup_of_getElem?_inj {α : Type} (l : List α)
    (h : ∀ i j : Nat, ∀ a : α, l[i]? = some a → l[j]? = some a → i = j) :
    l.Nodup := by
  rw [List.nodup_iff_getElem?_ne_getElem?]
  intro i j hij hj heq
  have hi : i < l.length := by omega
  have h1 : l[i]? = some l[i] := List.getElem?_eq_getElem hi
  have h2 : l[j]? = some l[i] := by rw [← heq]; exact h1
  have := h i j l[i] h1 h2
  omega

theorem list_range_surj {l : List Nat} (hnd : l.Nodup)
    (hlt : ∀ x ∈ l, x < l.length) (y : Nat) (hy : y < l.length) :
    ∃ i : Nat, l[i]? = some y := by
  have hsub : l.toFinset ⊆ Finset.range l.length := by
    intro x hx
    rw [List.mem_toFinset] at hx
    rw [Finset.mem_range]
    exact hlt x hx
  have hcard : (Finset.range l.length).card ≤ l.toFinset.card := by
    rw [Finset.card_range, List.toFinset_card_of_nodup hnd]
  have heq := Finset.eq_of_subset_of_card_le hsub hcard
  have hymem : y ∈ l.toFinset := by
    rw [heq]; rw [Finset.mem_range]; exact hy
  rw [List.mem_toFinset] at hymem
  exact List.mem_iff_getElem?.1 hymem

theorem getElem?_set_self_of_lt {α : Type} {l : List α} {i : Nat} (a : α)
    (h : i < l.length) : (l.set i a)[i]? = some a := by
  rw [List.getElem?_set_self]; simp [h]

theorem getElem?_map_eq {α β : Type} (f : α → β) (l : List α) (i : Nat) :
    (l.map f)[i]? = (l[i]?).map f := by
  simp [List.getElem?_map]

/-! ### The structural invariant of reachable cache states -/

/-- Structural invariant of a `SwapCache` of capacity `cap`: list lengths
agree and stay below capacity, `top` is inside the ring and equals the
ring length while the cache is still filling, ring and entry positions
point at each other, the mapping and the entry store agree in both
directions, the mapping has distinct keys and exactly one entry per
occupied slot, and the tuning parameters satisfy the bounds that the
adaptive updates maintain. -/
structure CacheInv {K V : Type} [DecidableEq K] (cap : Nat) (s : SwapCache K V) :
    Prop where
  entries_len : s.entries.length = s.lru.ring.length
  ring_cap : s.lru.ring.length ≤ cap
  mp_eq : s.lru.max_pointer + 1 = cap
  top_le : s.lru.top ≤ s.lru.max_pointer
  top_fill : s.lru.ring.length < cap → s.lru.top = s.lru.ring.length
  ring_vals : ∀ i sl : Nat, s.lru.ring[i]? = some sl → sl < s.entries.length
  pairing : ∀ i sl : Nat, s.lru.ring[i]? = some sl →
      (s.entries[sl]?).map (fun e => e.index) = some i
  map_key : ∀ (k : K) (sl : Nat), mapLookup s.mapping k = some sl →
      (s.entries[sl]?).map (fun e => e.key) = some k
  map_rev : ∀ (sl : Nat) (e : CacheEntry K V), s.entries[sl]? = some e →
      mapLookup s.mapping e.key = some sl
  map_nodup : (s.mapping.map Prod.fst).Nodup
  map_len : s.mapping.length = s.lru.ring.length
  ratio_le : s.lru.move_ratio ≤ 99
  mud_le : s.lru.min_update_distance ≤ s.lru.max_pointer + 1
  limit_eq : s.lru.min_update_limit =
      1 + s.lru.max_pointer - (s.lru.max_pointer * s.lru.move_ratio) / 100

theorem CacheInv.ring_nodup {K V : Type} [DecidableEq K] {cap : Nat}
    {s : SwapCache K V} (h : CacheInv cap s) : s.lru.ring.Nodup := by
  apply nodup_of_getElem?_inj
  intro i j a h1 h2
  have p1 := h.pairing i a h1
  have p2 := h.pairing j a h2
  rw [p1] at p2
  exact Option.some.inj p2

theorem CacheInv.ring_surj {K V : Type} [DecidableEq K] {cap : Nat}
    {s : SwapCache K V} (h : CacheInv cap s) (sl : Nat)
    (hsl : sl < s.entries.length) : ∃ i : Nat, s.lru.ring[i]? = some sl := by
  apply list_range_surj h.ring_nodup
  · intro x hx
    obtain ⟨i, hi⟩ := List.mem_iff_getElem?.1 hx
    have hv := h.ring_vals i x hi
    have hel := h.entries_len
    omega
  · rw [← h.entries_len]; exact hsl

theorem CacheInv.slot_position {K V : Type} [DecidableEq K] {cap : Nat}
    {s : SwapCache K V} (h : CacheInv cap s) {sl : Nat} {e : CacheEntry K V}
    (he : s.entries[sl]? = some e) :
    e.index < s.lru.ring.length ∧ s.lru.ring[e.index]? = some sl := by
  obtain ⟨i, hi⟩ := h.ring_surj sl (getElem?_some_lt he)
  have hp := h.pairing i sl hi
  rw [he] at hp
  have hidx : e.index = i := by
    simpa using hp
  rw [hidx]
  exact ⟨getElem?_some_lt hi, hi⟩

/-! ### Loop invariant of the promotion walk -/

/-- A successful ring walk preserves the "hole" invariant: every ring
position other than the walk's current hole points back at itself, the
moving slot id appears nowhere outside the hole, lengths are preserved,
the final hole is in bounds, and keys and values of all entries are
untouched (only `index` fields change). -/
theorem walkLoop_hole {K V : Type} (slot L mp : Nat) :
    ∀ (fuel : Nat) (ring : List Nat) (entries : List (CacheEntry K V))
      (cur md steep : Nat)
      (r' : List Nat) (e' : List (CacheEntry K V)) (fin iters : Nat),
      walkLoop fuel ring entries cur md steep mp = some (r', e', fin, iters) →
      ring.length = L → entries.length = L → cur < L →
      1 ≤ steep → steep < mp →
      (∀ i sl : Nat, ring[i]? = some sl → sl < L) →
      (∀ i sl : Nat, i ≠ cur → ring[i]? = some sl →
          (entries[sl]?).map (fun e => e.index) = some i) →
      (∀ i : Nat, i ≠ cur → ring[i]? ≠ some slot) →
      r'.length = L ∧ e'.length = L ∧ fin < L ∧
      (∀ i sl : Nat, r'[i]? = some sl → sl < L) ∧
      (∀ i sl : Nat, i ≠ fin → r'[i]? = some sl →
          (e'[sl]?).map (fun e => e.index) = some i) ∧
      (∀ i : Nat, i ≠ fin → r'[i]? ≠ some slot) ∧
      e'.map (fun e => (e.key, e.value)) =
        entries.map (fun e => (e.key, e.value)) := by
  intro fuel
  induction fuel with
  | zero =>
    intro ring entries cur md steep r' e' fin iters hrun
    intro _ _ _ _ _ _ _ _
    simp [walkLoop] at hrun
  | succ f ih =>
    intro ring entries cur md steep r' e' fin iters hrun
    intro hrl hel hcur hs1 hs2 hvals hpair hslot
    simp only [walkLoop] at hrun
    set n : Nat := if cur + steep ≥ mp then cur + steep - mp else cur + steep
      with hn
    have hncur : n ≠ cur := by
      by_cases hge : cur + steep ≥ mp
      · rw [hn, if_pos hge]; omega
      · rw [hn, if_neg hge]; omega
    split at hrun
    · exact absurd hrun (by simp)
    rename_i demoted hrn
    split at hrun
    · exact absurd hrun (by simp)
    rename_i de hde
    split at hrun
    · exact absurd hrun (by simp)
    rename_i ring1 hring1
    obtain ⟨hcurlen, hring1eq⟩ := listSetChecked_some hring1
    subst hring1eq
    have hnL : n < L := by
      have := getElem?_some_lt hrn; omega
    have hdemL : demoted < L := hvals n demoted hrn
    have hdemlen : demoted < entries.length := by omega
    have hlen1r : (ring.set cur demoted).length = L := by simp [hrl]
    have hlen1e :
        (entries.set demoted { de with index := cur }).length = L := by
      simp [hel]
    have hvals1 : ∀ i sl : Nat, (ring.set cur demoted)[i]? = some sl →
        sl < L := by
      intro i sl hi
      by_cases hic : i = cur
      · subst hic
        rw [getElem?_set_self_of_lt demoted hcurlen] at hi
        have : demoted = sl := Option.some.inj hi
        omega
      · rw [List.getElem?_set_ne (fun hh => hic hh.symm)] at hi
        exact hvals i sl hi
    have hpair1 : ∀ i sl : Nat, i ≠ n →
        (ring.set cur demoted)[i]? = some sl →
        ((entries.set demoted { de with index := cur })[sl]?).map
          (fun e => e.index) = some i := by
      intro i sl hin hi
      by_cases hic : i = cur
      · subst hic
        rw [getElem?_set_self_of_lt demoted hcurlen] at hi
        have hsl : demoted = sl := Option.some.inj hi
        subst hsl
        rw [getElem?_set_self_of_lt _ hdemlen]
        rfl
      · rw [List.getElem?_set_ne (fun hh => hic hh.symm)] at hi
        have hold := hpair i sl hic hi
        have hslne : sl ≠ demoted := by
          intro hh
          subst hh
          have h2 := hpair n sl hncur hrn
          rw [hold] at h2
          exact hin (Option.some.inj h2)
        rw [List.getElem?_set_ne (fun hh => hslne hh.symm)]
        exact hold
    have hslot1 : ∀ i : Nat, i ≠ n →
        (ring.set cur demoted)[i]? ≠ some slot := by
      intro i hin hcontra
      by_cases hic : i = cur
      · subst hic
        rw [getElem?_set_self_of_lt demoted hcurlen] at hcontra
        have hds : demoted = slot := Option.some.inj hcontra
        exact hslot n hncur (hds ▸ hrn)
      · rw [List.getElem?_set_ne (fun hh => hic hh.symm)] at hcontra
        exact hslot i hic hcontra
    have hpres1 :
        (entries.set demoted { de with index := cur }).map
            (fun e => (e.key, e.value)) =
          entries.map (fun e => (e.key, e.value)) := by
      rw [List.map_set]
      apply listSet_self
      rw [getElem?_map_eq, hde]
      rfl
    by_cases hmd : md > steep
    · rw [if_pos hmd] at hrun
      cases hrec : walkLoop f (ring.set cur demoted)
          (entries.set demoted { de with index := cur }) n (md - steep)
          steep mp with
      | none =>
        rw [hrec] at hrun
        exact absurd hrun (by simp)
      | some out =>
      obtain ⟨r2, e2, fin2, it2⟩ := out
      simp only [hrec, Option.some.injEq, Prod.mk.injEq] at hrun
      have hres := ih (ring.set cur demoted)
        (entries.set demoted { de with index := cur }) n (md - steep)
        steep r2 e2 fin2 it2 hrec hlen1r hlen1e hnL hs1 hs2 hvals1
        hpair1 hslot1
      obtain ⟨g1, g2, g3, g4, g5, g6, g7⟩ := hres
      obtain ⟨hq1, hq2, hq3, hq4⟩ := hrun
      subst hq1; subst hq2; subst hq3
      exact ⟨g1, g2, g3, g4, g5, g6, g7.trans hpres1⟩
    · rw [if_neg hmd] at hrun
      simp only [Option.some.injEq, Prod.mk.injEq] at hrun
      obtain ⟨hq1, hq2, hq3, hq4⟩ := hrun
      subst hq1; subst hq2; subst hq3
      exact ⟨hlen1r, hlen1e, hnL, hvals1, hpair1, hslot1, hpres1⟩

/-- When the ring is full (`max_pointer + 1` positions), every access of
the walk is in bounds, so the walk always succeeds. -/
theorem walkLoop_success {K V : Type} {L mp : Nat} (hLmp : mp + 1 = L) :
    ∀ (fuel : Nat) (ring : List Nat) (entries : List (CacheEntry K V))
      (cur md steep : Nat),
      ring.length = L → entries.length = L → cur < L →
      1 ≤ steep → steep ≤ mp → md + 1 ≤ fuel →
      (∀ i sl : Nat, ring[i]? = some sl → sl < L) →
      ∃ out, walkLoop fuel ring entries cur md steep mp = some out := by
  intro fuel
  induction fuel with
  | zero =>
    intro ring entries cur md steep _ _ _ _ _ hfuel _
    omega
  | succ f ih =>
    intro ring entries cur md steep hrl hel hcur hs1 hs2 hfuel hvals
    simp only [walkLoop]
    set n : Nat := if cur + steep ≥ mp then cur + steep - mp else cur + steep
      with hn
    have hnmp : n ≤ mp := by
      by_cases hge : cur + steep ≥ mp
      · rw [hn, if_pos hge]; omega
      · rw [hn, if_neg hge]; omega
    have hnL : n < L := by omega
    have hnlen : n < ring.length := by omega
    have hrn : ring[n]? = some ring[n] := List.getElem?_eq_getElem hnlen
    have hdem : ring[n] < L := hvals n ring[n] hrn
    have hdemlen : ring[n] < entries.length := by omega
    have hde : entries[ring[n]]? = some entries[ring[n]] :=
      List.getElem?_eq_getElem hdemlen
    have hcurlen : cur < ring.length := by omega
    simp only [hrn, hde, listSetChecked_of_lt ring[n] hcurlen]
    by_cases hmd : md > steep
    · rw [if_pos hmd]
      have hvals1 : ∀ i sl : Nat, (ring.set cur ring[n])[i]? = some sl →
          sl < L := by
        intro i sl hi
        by_cases hic : i = cur
        · subst hic
          rw [getElem?_set_self_of_lt ring[n] hcurlen] at hi
          have : ring[n] = sl := Option.some.inj hi
          omega
        · rw [List.getElem?_set_ne (fun hh => hic hh.symm)] at hi
          exact hvals i sl hi
      obtain ⟨out, hout⟩ := ih (ring.set cur ring[n])
        (entries.set ring[n] { entries[ring[n]] with index := cur }) n
        (md - steep) steep (by simp [hrl]) (by simp [hel]) hnL hs1 hs2
        (by omega) hvals1
      rw [hout]
      exact ⟨_, rfl⟩
    · rw [if_neg hmd]
      exact ⟨_, rfl⟩

/-- Iteration count of a successful walk: either a single iteration, or
all but the last iteration each consumed `steep_size` of the original
`move_distance`. -/
theorem walkLoop_iters {K V : Type} (mp : Nat) :
    ∀ (fuel : Nat) (ring : List Nat) (entries : List (CacheEntry K V))
      (cur md steep : Nat)
      (r' : List Nat) (e' : List (CacheEntry K V)) (fin iters : Nat),
      walkLoop fuel ring entries cur md steep mp = some (r', e', fin, iters) →
      iters = 1 ∨ (iters - 1) * steep < md := by
  intro fuel
  induction fuel with
  | zero =>
    intro ring entries cur md steep r' e' fin iters hrun
    simp [walkLoop] at hrun
  | succ f ih =>
    intro ring entries cur md steep r' e' fin iters hrun
    simp only [walkLoop] at hrun
    split at hrun
    · exact absurd hrun (by simp)
    rename_i demoted hrn
    split at hrun
    · exact absurd hrun (by simp)
    rename_i de hde
    split at hrun
    · exact absurd hrun (by simp)
    rename_i ring1 hring1
    by_cases hmd : md > steep
    · rw [if_pos hmd] at hrun
      cases hrec : walkLoop f ring1
          (entries.set demoted { de with index := cur })
          (if cur + steep ≥ mp then cur + steep - mp else cur + steep)
          (md - steep) steep mp with
      | none =>
        rw [hrec] at hrun
        exact absurd hrun (by simp)
      | some out =>
      obtain ⟨r2, e2, fin2, it2⟩ := out
      simp only [hrec, Option.some.injEq, Prod.mk.injEq] at hrun
      obtain ⟨hq1, hq2, hq3, hq4⟩ := hrun
      have hit := ih ring1 (entries.set demoted { de with index := cur })
        (if cur + steep ≥ mp then cur + steep - mp else cur + steep)
        (md - steep) steep r2 e2 fin2 it2 hrec
      right
      have hsub : (it2 - 1) * steep = it2 * steep - steep := by
        rw [Nat.sub_mul, Nat.one_mul]
      rcases hit with h1 | h2
      · subst h1
        simp only [← hq4]
        omega
      · rw [hsub] at h2
        have hle : (iters - 1) * steep ≤ it2 * steep := by
          have : iters - 1 ≤ it2 := by omega
          exact Nat.mul_le_mul_right steep this
        have h3 : it2 * steep < md := by omega
        omega
    · rw [if_neg hmd] at hrun
      simp only [Option.some.injEq, Prod.mk.injEq] at hrun
      left
      omega

/-- With the step budget 10 that `get` uses, `steep_size = max (md / 10) 1`
bounds the walk at 19 iterations. -/
theorem iters_le_nineteen (md iters : Nat)
    (h : iters = 1 ∨ (iters - 1) * (max (md / 10) 1) < md) : iters ≤ 19 := by
  rcases h with h1 | h2
  · omega
  by_cases hmd : md ≤ 19
  · have hs1 : 1 ≤ max (md / 10) 1 := le_max_right _ _
    have : iters - 1 ≤ (iters - 1) * (max (md / 10) 1) :=
      Nat.le_mul_of_pos_right _ (by omega)
    omega
  · have hq : md / 10 = max (md / 10) 1 := by
      have : 2 ≤ md / 10 := by omega
      omega
    rw [← hq] at h2
    by_contra h19
    have h20 : 19 ≤ iters - 1 := by omega
    have hmul : 19 * (md / 10) ≤ (iters - 1) * (md / 10) :=
      Nat.mul_le_mul_right _ h20
    have hd : 10 * (md / 10) + md % 10 = md := Nat.div_add_mod md 10
    omega

/-! ### put preserves the invariant -/

theorem getElem?_append_left {α : Type} {l m : List α} {i : Nat}
    (h : i < l.length) : (l ++ m)[i]? = l[i]? := by
  rw [List.getElem?_append]
  rw [if_pos h]

theorem putFinish_mapping {K V : Type} [DecidableEq K] (c : SwapCache K V)
    (k : K) (slot : Nat) :
    (putFinish c k slot).mapping = mapInsert c.mapping k slot := rfl

theorem putFinish_ring {K V : Type} [DecidableEq K] (c : SwapCache K V)
    (k : K) (slot : Nat) : (putFinish c k slot).lru.ring = c.lru.ring := rfl

theorem putFinish_entries {K V : Type} [DecidableEq K] (c : SwapCache K V)
    (k : K) (slot : Nat) : (putFinish c k slot).entries = c.entries := rfl

theorem putFinish_top {K V : Type} [DecidableEq K] (c : SwapCache K V)
    (k : K) (slot : Nat) :
    (putFinish c k slot).lru.top =
      if c.lru.top + 1 > c.lru.max_pointer then 0 else c.lru.top + 1 := rfl

theorem putFinish_mp {K V : Type} [DecidableEq K] (c : SwapCache K V)
    (k : K) (slot : Nat) :
    (putFinish c k slot).lru.max_pointer = c.lru.max_pointer := rfl

theorem putFinish_ratio {K V : Type} [DecidableEq K] (c : SwapCache K V)
    (k : K) (slot : Nat) :
    (putFinish c k slot).lru.move_ratio = c.lru.move_ratio := rfl

theorem putFinish_mud {K V : Type} [DecidableEq K] (c : SwapCache K V)
    (k : K) (slot : Nat) :
    (putFinish c k slot).lru.min_update_distance =
      c.lru.min_update_distance := rfl

theorem putFinish_limit {K V : Type} [DecidableEq K] (c : SwapCache K V)
    (k : K) (slot : Nat) :
    (putFinish c k slot).lru.min_update_limit = c.lru.min_update_limit := rfl

theorem putFinish_long {K V : Type} [DecidableEq K] (c : SwapCache K V)
    (k : K) (slot : Nat) :
    (putFinish c k slot).lru.long_distance = c.lru.long_distance := rfl

/-- SwapCache::put preserves the structural invariant. -/
theorem put_inv {K V : Type} [DecidableEq K] {cap : Nat} {s s' : SwapCache K V}
    {k : K} {v : V} (hinv : CacheInv cap s) (hput : s.put k v = some s') :
    CacheInv cap s' := by
  simp only [SwapCache.put] at hput
  by_cases hcont : mapContains s.mapping k = true
  · rw [if_pos hcont] at hput
    obtain rfl : s = s' := Option.some.inj hput
    exact hinv
  · rw [if_neg hcont] at hput
    have hlook : mapLookup s.mapping k = none := by
      unfold mapContains at hcont
      cases h : mapLookup s.mapping k with
      | none => rfl
      | some x => rw [h] at hcont; simp at hcont
    by_cases hfill : s.lru.ring.length ≤ s.lru.top
    · rw [if_pos hfill] at hput
      have hlen : s.lru.ring.length < cap := by
        rcases Nat.lt_or_ge s.lru.ring.length cap with h | h
        · exact h
        · have hc : s.lru.ring.length = cap :=
            Nat.le_antisymm hinv.ring_cap h
          have h1 := hinv.top_le
          have h2 := hinv.mp_eq
          omega
      have htop : s.lru.top = s.lru.ring.length := hinv.top_fill hlen
      obtain rfl : _ = s' := Option.some.inj hput
      have hE : s.entries.length = s.lru.ring.length := hinv.entries_len
      set L := s.lru.ring.length with hL
      -- the state after the fill branch
      refine ⟨?_, ?_, ?_, ?_, ?_, ?_, ?_, ?_, ?_, ?_, ?_, ?_, ?_, ?_⟩
      · simp [putFinish_entries, putFinish_ring, hE]
      · simp only [putFinish_ring, List.length_append, List.length_cons,
          List.length_nil]
        omega
      · simp only [putFinish_mp]; exact hinv.mp_eq
      · simp only [putFinish_top, putFinish_mp]
        split <;> [exact Nat.zero_le _; omega]
      · simp only [putFinish_ring, putFinish_top, putFinish_mp]
        intro hlt
        simp only [List.length_append, List.length_cons,
          List.length_nil] at hlt
        have hmp := hinv.mp_eq
        split
        · rename_i hgt
          omega
        · rename_i hgt
          simp [← hL]
          omega
      · -- ring_vals
        simp only [putFinish_ring, putFinish_entries]
        intro i sl hi
        simp only [List.length_append, List.length_cons, List.length_nil]
        rw [List.getElem?_append] at hi
        split at hi
        · have := hinv.ring_vals i sl hi
          omega
        · rename_i hile
          cases hsub : i - s.lru.ring.length with
          | zero =>
            rw [hsub] at hi
            simp at hi
            omega
          | succ j =>
            rw [hsub] at hi
            simp at hi
      · -- pairing
        simp only [putFinish_ring, putFinish_entries]
        intro i sl hi
        rw [List.getElem?_append] at hi
        split at hi
        · rename_i hiL
          have hsl := hinv.ring_vals i sl hi
          rw [getElem?_append_left (by omega)]
          exact hinv.pairing i sl hi
        · rename_i hile
          have hiL : L ≤ i := by omega
          rcases Nat.lt_or_ge (i - L) 1 with h1 | h1
          · have hi0 : i - L = 0 := by omega
            rw [hi0] at hi
            simp at hi
            have hieq : i = L := by omega
            subst hieq
            subst hi
            rw [List.getElem?_append_right (by omega)]
            rw [hE]
            simp
          · rw [List.getElem?_eq_none (by simp; omega)] at hi
            exact absurd hi (by simp)
      · -- map_key
        simp only [putFinish_mapping, putFinish_entries]
        intro k' sl hk'
        rw [mapLookup_mapInsert] at hk'
        split at hk'
        · rename_i hkk
          obtain rfl : s.entries.length = sl := Option.some.inj hk'
          rw [List.getElem?_append_right (by omega)]
          simp [hkk]
        · have hold := hinv.map_key k' sl hk'
          have hsl : sl < s.entries.length := by
            cases h : s.entries[sl]? with
            | none => rw [h] at hold; simp at hold
            | some e => exact getElem?_some_lt h
          rw [getElem?_append_left (by omega)]
          exact hold
      · -- map_rev
        simp only [putFinish_mapping, putFinish_entries]
        intro sl e he
        rw [List.getElem?_append] at he
        split at he
        · rename_i hslE
          have hold := hinv.map_rev sl e he
          rw [mapLookup_mapInsert]
          have hne : e.key ≠ k := by
            intro hh
            rw [hh] at hold
            rw [hlook] at hold
            exact absurd hold (by simp)
          rw [if_neg hne]
          exact hold
        · rename_i hslE
          rcases Nat.lt_or_ge (sl - s.entries.length) 1 with h1 | h1
          · have hsl0 : sl - s.entries.length = 0 := by omega
            rw [hsl0] at he
            simp at he
            have hsleq : sl = s.entries.length := by omega
            rw [mapLookup_mapInsert]
            rw [← he]
            simp [hsleq]
          · rw [List.getElem?_eq_none (by simp; omega)] at he
            exact absurd he (by simp)
      · -- map_nodup
        simp only [putFinish_mapping]
        exact nodup_map_fst_mapInsert _ _ _ hinv.map_nodup
      · -- map_len
        simp only [putFinish_mapping, putFinish_ring, mapInsert]
        rw [mapRemove_absent s.mapping k hlook]
        simp [hinv.map_len, ← hL]
      · simp only [putFinish_ratio]; exact hinv.ratio_le
      · simp only [putFinish_mud, putFinish_mp]; exact hinv.mud_le
      · simp only [putFinish_limit, putFinish_mp, putFinish_ratio]
        exact hinv.limit_eq
    · rw [if_neg hfill] at hput
      have htoplt : s.lru.top < s.lru.ring.length := by omega
      have hLcap : s.lru.ring.length = cap := by
        rcases Nat.lt_or_ge s.lru.ring.length cap with h | h
        · have := hinv.top_fill h
          omega
        · exact Nat.le_antisymm hinv.ring_cap h
      cases htopq : s.lru.ring[s.lru.top]? with
      | none =>
        rw [htopq] at hput
        exact absurd hput (by simp)
      | some slot =>
      have hslotE : slot < s.entries.length := hinv.ring_vals _ slot htopq
      cases holdq : s.entries[slot]? with
      | none =>
        have h2 := List.getElem?_eq_getElem hslotE
        rw [holdq] at h2
        exact absurd h2 (by simp)
      | some old =>
      simp only [htopq, holdq] at hput
      -- the two mud branches produce the same structural state
      have hidx : old.index = s.lru.top := by
        have := hinv.pairing s.lru.top slot htopq
        rw [holdq] at this
        simpa using this
      have hkold : mapLookup s.mapping old.key = some slot :=
        hinv.map_rev slot old holdq
      have hkne : k ≠ old.key := by
        intro hh
        rw [hh] at hlook
        rw [hlook] at hkold
        exact absurd hkold (by simp)
      -- name the post-state pieces
      set m1 : List (K × Nat) := mapRemove s.mapping old.key with hm1
      set e1 : List (CacheEntry K V) :=
        s.entries.set slot ⟨k, v, s.lru.top⟩ with he1
      -- both branches of the mud decrement give the same other fields
      have hmain : ∀ t : SwapCache K V,
          t.mapping = mapInsert m1 k slot →
          t.lru.ring = s.lru.ring →
          t.entries = e1 →
          t.lru.max_pointer = s.lru.max_pointer →
          (t.lru.top = if s.lru.top + 1 > s.lru.max_pointer then 0
            else s.lru.top + 1) →
          t.lru.move_ratio = s.lru.move_ratio →
          t.lru.min_update_distance ≤ s.lru.min_update_distance →
          t.lru.min_update_limit = s.lru.min_update_limit →
          CacheInv cap t := by
        intro t hmap hring hent hmp htop hratio hmud hlimit
        refine ⟨?_, ?_, ?_, ?_, ?_, ?_, ?_, ?_, ?_, ?_, ?_, ?_, ?_, ?_⟩
        · rw [hent, hring, he1]
          simp [hinv.entries_len]
        · rw [hring]; exact hinv.ring_cap
        · rw [hmp]; exact hinv.mp_eq
        · rw [htop, hmp]
          split <;> [exact Nat.zero_le _; omega]
        · rw [hring, htop]
          intro hlt
          omega
        · rw [hring, hent, he1]
          intro i sl2 hi
          have := hinv.ring_vals i sl2 hi
          simp
          omega
        · rw [hring, hent, he1]
          intro i sl2 hi
          by_cases hsl2 : sl2 = slot
          · subst hsl2
            have hieq : i = s.lru.top := by
              have h1 := hinv.pairing i sl2 hi
              rw [holdq] at h1
              simp at h1
              omega
            subst hieq
            rw [getElem?_set_self_of_lt _ hslotE]
            rfl
          · rw [List.getElem?_set_ne (fun hh => hsl2 hh.symm)]
            exact hinv.pairing i sl2 hi
        · rw [hmap, hent, he1]
          intro k' sl2 hk'
          rw [mapLookup_mapInsert] at hk'
          split at hk'
          · rename_i hkk
            obtain rfl : slot = sl2 := Option.some.inj hk'
            rw [getElem?_set_self_of_lt _ hslotE]
            simp [hkk]
          · rename_i hkk
            rw [hm1, mapLookup_mapRemove] at hk'
            split at hk'
            · exact absurd hk' (by simp)
            · rename_i hkold2
              have hold2 := hinv.map_key k' sl2 hk'
              have hne2 : sl2 ≠ slot := by
                intro hh
                subst hh
                rw [holdq] at hold2
                simp at hold2
                exact hkold2 hold2.symm
              rw [List.getElem?_set_ne (fun hh => hne2 hh.symm)]
              exact hold2
        · rw [hmap, hent, he1]
          intro sl2 e he2
          by_cases hsl2 : sl2 = slot
          · subst hsl2
            rw [getElem?_set_self_of_lt _ hslotE] at he2
            obtain rfl : (⟨k, v, s.lru.top⟩ : CacheEntry K V) = e :=
              Option.some.inj he2
            rw [mapLookup_mapInsert]
            simp
          · rw [List.getElem?_set_ne (fun hh => hsl2 hh.symm)] at he2
            have hold2 := hinv.map_rev sl2 e he2
            have hne2 : e.key ≠ k := by
              intro hh
              rw [hh, hlook] at hold2
              exact absurd hold2 (by simp)
            have hne3 : e.key ≠ old.key := by
              intro hh
              rw [hh, hkold] at hold2
              exact hsl2 (Option.some.inj hold2).symm
            rw [mapLookup_mapInsert, if_neg hne2, hm1,
              mapLookup_mapRemove, if_neg hne3]
            exact hold2
        · rw [hmap]
          apply nodup_map_fst_mapInsert
          rw [hm1]
          exact nodup_map_fst_mapRemove _ _ hinv.map_nodup
        · rw [hmap, hring, mapInsert]
          have habs : mapLookup m1 k = none := by
            rw [hm1, mapLookup_mapRemove, if_neg hkne]
            exact hlook
          rw [mapRemove_absent m1 k habs]
          simp only [List.length_cons]
          rw [hm1]
          have := length_mapRemove_present s.mapping old.key slot
            hinv.map_nodup hkold
          have := hinv.map_len
          omega
        · rw [hratio]; exact hinv.ratio_le
        · rw [hmp]
          have := hinv.mud_le
          omega
        · rw [hlimit, hmp, hratio]; exact hinv.limit_eq
      split at hput
      · obtain rfl : _ = s' := Option.some.inj hput
        apply hmain
        · rfl
        · rfl
        · rfl
        · rfl
        · rfl
        · rfl
        · simp only [putFinish_mud]; omega
        · rfl
      · obtain rfl : _ = s' := Option.some.inj hput
        apply hmain
        · rfl
        · rfl
        · rfl
        · rfl
        · rfl
        · rfl
        · simp only [putFinish_mud]
          omega
        · rfl


/-! ### update preserves the invariant -/

theorem updTuning_ring (l : Lru) (d : Nat) : (updTuning l d).ring = l.ring := by
  simp only [updTuning]
  split
  all_goals split
  all_goals try split
  all_goals rfl

theorem updTuning_top (l : Lru) (d : Nat) : (updTuning l d).top = l.top := by
  simp only [updTuning]
  split
  all_goals split
  all_goals try split
  all_goals rfl

theorem updTuning_mp (l : Lru) (d : Nat) :
    (updTuning l d).max_pointer = l.max_pointer := by
  simp only [updTuning]
  split
  all_goals split
  all_goals try split
  all_goals rfl

theorem updTuning_long (l : Lru) (d : Nat) :
    (updTuning l d).long_distance = l.long_distance := by
  simp only [updTuning]
  split
  all_goals split
  all_goals try split
  all_goals rfl

theorem updTuning_ratio_le (l : Lru) (d : Nat) (h : l.move_ratio ≤ 99) :
    (updTuning l d).move_ratio ≤ 99 := by
  simp only [updTuning]
  split
  all_goals split
  all_goals try split
  all_goals try simp only [Lru.set_min_update_limit]
  all_goals try dsimp only at *
  all_goals omega

theorem updTuning_mud_le (l : Lru) (d : Nat)
    (hlim : l.min_update_limit =
      1 + l.max_pointer - (l.max_pointer * l.move_ratio) / 100)
    (h : l.min_update_distance ≤ l.max_pointer + 1) :
    (updTuning l d).min_update_distance ≤ l.max_pointer + 1 := by
  simp only [updTuning]
  split
  all_goals split
  all_goals try split
  all_goals try simp only [Lru.set_min_update_limit]
  all_goals try dsimp only at *
  all_goals omega

theorem updTuning_limit_eq (l : Lru) (d : Nat)
    (hlim : l.min_update_limit =
      1 + l.max_pointer - (l.max_pointer * l.move_ratio) / 100) :
    (updTuning l d).min_update_limit = 1 + (updTuning l d).max_pointer -
      ((updTuning l d).max_pointer * (updTuning l d).move_ratio) / 100 := by
  simp only [updTuning]
  split
  all_goals split
  all_goals try split
  all_goals try simp only [Lru.set_min_update_limit]
  all_goals try dsimp only at *
  all_goals omega

theorem map_kv_getElem_key {K V : Type} {l1 l2 : List (CacheEntry K V)}
    (h : l1.map (fun e => (e.key, e.value)) =
      l2.map (fun e => (e.key, e.value))) (sl : Nat) :
    (l1[sl]?).map (fun e => e.key) = (l2[sl]?).map (fun e => e.key) := by
  have h1 := congrArg (fun l => l[sl]?) h
  simp only [getElem?_map_eq] at h1
  cases ha : l1[sl]? <;> cases hb : l2[sl]? <;> rw [ha, hb] at h1 <;>
    simp at h1 ⊢
  · exact h1.1

theorem map_kv_getElem_value {K V : Type} {l1 l2 : List (CacheEntry K V)}
    (h : l1.map (fun e => (e.key, e.value)) =
      l2.map (fun e => (e.key, e.value))) (sl : Nat) :
    (l1[sl]?).map (fun e => e.value) = (l2[sl]?).map (fun e => e.value) := by
  have h1 := congrArg (fun l => l[sl]?) h
  simp only [getElem?_map_eq] at h1
  cases ha : l1[sl]? <;> cases hb : l2[sl]? <;> rw [ha, hb] at h1 <;>
    simp at h1 ⊢
  · exact h1.2

/-- The distance computed by `update` never exceeds `max_pointer` in a
state satisfying the invariant. -/
theorem distance_le_mp {K V : Type} [DecidableEq K] {cap : Nat}
    {s : SwapCache K V} (hinv : CacheInv cap s) {slot : Nat}
    {e : CacheEntry K V} (he : s.entries[slot]? = some e) :
    (if e.index ≤ s.lru.top then s.lru.top - e.index
      else s.lru.top + s.lru.max_pointer - e.index) ≤ s.lru.max_pointer := by
  have htop := hinv.top_le
  have hpos := (hinv.slot_position he).1
  have hlen := hinv.entries_len
  have hcap := hinv.ring_cap
  have hmp := hinv.mp_eq
  split <;> omega

/-- SwapCache::update preserves the structural invariant. -/
theorem update_inv {K V : Type} [DecidableEq K] {cap : Nat}
    {s s' : SwapCache K V} {k : K} {count : Nat} {v : Option V} {iters : Nat}
    (hinv : CacheInv cap s) (hupd : s.update k count = some (s', v, iters)) :
    CacheInv cap s' := by
  simp only [SwapCache.update] at hupd
  cases hsl : mapLookup s.mapping k with
  | none =>
    simp only [hsl, Option.some.injEq, Prod.mk.injEq] at hupd
    rw [← hupd.1]
    exact hinv
  | some slot =>
    simp only [hsl] at hupd
    cases heq : s.entries[slot]? with
    | none => simp [heq] at hupd
    | some e =>
      simp only [heq] at hupd
      have hdistlemma := distance_le_mp hinv heq
      generalize hdist : (if e.index ≤ s.lru.top then s.lru.top - e.index
        else s.lru.top + s.lru.max_pointer - e.index) = dist at hupd hdistlemma
      by_cases hfast : dist ≤ s.lru.min_update_distance
      · rw [if_pos hfast] at hupd
        simp only [Option.some.injEq, Prod.mk.injEq] at hupd
        rw [← hupd.1]
        exact hinv
      · rw [if_neg hfast] at hupd
        generalize hmd : dist * s.lru.move_ratio / 100 = md at hupd
        generalize hsteep : max (md / count) 1 = steep at hupd
        have hslotL : slot < s.entries.length := getElem?_some_lt heq
        have hposfact := hinv.slot_position heq
        have hcurL : e.index < s.lru.ring.length := hposfact.1
        have hcurring : s.lru.ring[e.index]? = some slot := hposfact.2
        have hdistpos : 1 ≤ dist := by omega
        have hmppos : 1 ≤ s.lru.max_pointer := by omega
        have hsteep1 : 1 ≤ steep := by rw [← hsteep]; exact le_max_right _ _
        have hpairfull : ∀ i sl2 : Nat, i ≠ e.index →
            s.lru.ring[i]? = some sl2 →
            (s.entries[sl2]?).map (fun x => x.index) = some i := by
          intro i sl2 _ hi
          exact hinv.pairing i sl2 hi
        have hslotabs : ∀ i : Nat, i ≠ e.index →
            s.lru.ring[i]? ≠ some slot := by
          intro i hine hcontra
          have hp := hinv.pairing i slot hcontra
          rw [heq] at hp
          simp at hp
          exact hine hp.symm
        have hvalsL : ∀ i sl2 : Nat, s.lru.ring[i]? = some sl2 →
            sl2 < s.lru.ring.length := by
          intro i sl2 hi
          have := hinv.ring_vals i sl2 hi
          have := hinv.entries_len
          omega
        cases hwalk : walkLoop (md + 1) s.lru.ring s.entries e.index md steep
            s.lru.max_pointer with
        | none => simp [hwalk] at hupd
        | some out =>
        obtain ⟨ring1, entries1, fin, its⟩ := out
        simp only [hwalk] at hupd
        have hg : ring1.length = s.lru.ring.length ∧
            entries1.length = s.lru.ring.length ∧ fin < s.lru.ring.length ∧
            (∀ i sl2 : Nat, ring1[i]? = some sl2 → sl2 < s.lru.ring.length) ∧
            (∀ i sl2 : Nat, i ≠ fin → ring1[i]? = some sl2 →
                (entries1[sl2]?).map (fun x => x.index) = some i) ∧
            (∀ i : Nat, i ≠ fin → ring1[i]? ≠ some slot) ∧
            entries1.map (fun x => (x.key, x.value)) =
              s.entries.map (fun x => (x.key, x.value)) := by
          rcases Nat.lt_or_ge s.lru.max_pointer 2 with hmp2 | hmp2
          case inr =>
            have hmdlt : md < s.lru.max_pointer := by
              rw [← hmd]
              have h3 : dist * s.lru.move_ratio ≤ s.lru.max_pointer * 99 :=
                Nat.mul_le_mul hdistlemma hinv.ratio_le
              have h4 : dist * s.lru.move_ratio / 100 ≤
                  s.lru.max_pointer * 99 / 100 := Nat.div_le_div_right h3
              have h5 : s.lru.max_pointer * 99 / 100 < s.lru.max_pointer := by
                apply Nat.div_lt_of_lt_mul
                omega
              omega
            have hsteeplt : steep < s.lru.max_pointer := by
              rw [← hsteep]
              have h1 : md / count ≤ md := Nat.div_le_self _ _
              have h6 : max (md / count) 1 ≤ max md 1 :=
                max_le_max h1 (le_refl 1)
              have h7 : max md 1 < s.lru.max_pointer := by
                rcases Nat.eq_zero_or_pos md with h0 | hpos8
                · rw [h0]
                  simp
                  omega
                · rw [max_eq_left hpos8]
                  exact hmdlt
              omega
            exact walkLoop_hole slot s.lru.ring.length s.lru.max_pointer
              (md + 1) s.lru.ring s.entries e.index md steep ring1 entries1
              fin its hwalk rfl hinv.entries_len hcurL hsteep1 hsteeplt
              hvalsL hpairfull hslotabs
          case inl =>
            -- max_pointer = 1: the walk degenerates to a single no-op swap
            have hmp1 : s.lru.max_pointer = 1 := by omega
            have hd1 : dist ≤ 1 := by omega
            have hmd0 : md = 0 := by
              rw [← hmd]
              have h9 : dist * s.lru.move_ratio ≤ 1 * 99 :=
                Nat.mul_le_mul hd1 hinv.ratio_le
              exact Nat.div_eq_of_lt (by omega)
            have hst1 : steep = 1 := by rw [← hsteep, hmd0]; simp
            rw [hmd0, hst1, hmp1] at hwalk
            simp only [walkLoop] at hwalk
            rw [if_pos (by omega : e.index + 1 ≥ 1)] at hwalk
            simp only [Nat.add_sub_cancel] at hwalk
            simp only [hcurring] at hwalk
            simp only [heq] at hwalk
            have hgt01 : ¬ ((0:Nat) > 1) := by omega
            simp only [listSetChecked_of_lt slot hcurL, if_neg hgt01] at hwalk
            rw [show ({ key := e.key, value := e.value, index := e.index } :
              CacheEntry K V) = e from rfl] at hwalk
            rw [listSet_self heq] at hwalk
            rw [listSet_self hcurring] at hwalk
            simp only [Option.some.injEq, Prod.mk.injEq] at hwalk
            obtain ⟨hw1, hw2, hw3, hw4⟩ := hwalk
            subst hw1; subst hw2; subst hw3
            refine ⟨rfl, hinv.entries_len, hcurL, hvalsL, ?_, hslotabs, rfl⟩
            intro i sl2 _ hi
            exact hinv.pairing i sl2 hi
        obtain ⟨g1, g2, g3, g4, g5, g6, g7⟩ := hg
        cases he2q : entries1[slot]? with
        | none => simp [he2q] at hupd
        | some e2 =>
        simp only [he2q] at hupd
        have hfinlen : fin < ring1.length := by omega
        rw [listSetChecked_of_lt slot hfinlen] at hupd
        simp only [Option.some.injEq, Prod.mk.injEq] at hupd
        obtain ⟨hq1, hq2, hq3⟩ := hupd
        rw [← hq1]
        have hmain : ∀ t : SwapCache K V,
            t.mapping = s.mapping →
            t.lru.ring = ring1.set fin slot →
            t.entries = entries1.set slot { e2 with index := fin } →
            t.lru.max_pointer = s.lru.max_pointer →
            t.lru.top = s.lru.top →
            t.lru.move_ratio ≤ 99 →
            t.lru.min_update_distance ≤ s.lru.max_pointer + 1 →
            t.lru.min_update_limit = 1 + t.lru.max_pointer -
              (t.lru.max_pointer * t.lru.move_ratio) / 100 →
            CacheInv cap t := by
          intro t hmap hring hent hmp htop hratio hmud hlimit
          have hkv : (entries1.set slot { e2 with index := fin }).map
              (fun x => (x.key, x.value)) =
              s.entries.map (fun x => (x.key, x.value)) := by
            rw [List.map_set]
            exact (listSet_self (by rw [getElem?_map_eq, he2q]; rfl)).trans g7
          have hslotlen1 : slot < entries1.length := getElem?_some_lt he2q
          refine ⟨?_, ?_, ?_, ?_, ?_, ?_, ?_, ?_, ?_, ?_, ?_, ?_, ?_, ?_⟩
          · rw [hent, hring]
            simp only [List.length_set]
            omega
          · rw [hring]
            simp only [List.length_set]
            rw [g1]
            exact hinv.ring_cap
          · rw [hmp]; exact hinv.mp_eq
          · rw [htop, hmp]; exact hinv.top_le
          · rw [hring, htop]
            simp only [List.length_set]
            rw [g1]
            exact hinv.top_fill
          · rw [hring, hent]
            intro i sl2 hi
            simp only [List.length_set]
            by_cases hif : i = fin
            · subst hif
              rw [getElem?_set_self_of_lt slot hfinlen] at hi
              obtain rfl : slot = sl2 := Option.some.inj hi
              omega
            · rw [List.getElem?_set_ne (fun hh => hif hh.symm)] at hi
              have := g4 i sl2 hi
              omega
          · rw [hring, hent]
            intro i sl2 hi
            by_cases hif : i = fin
            · subst hif
              rw [getElem?_set_self_of_lt slot hfinlen] at hi
              obtain rfl : slot = sl2 := Option.some.inj hi
              rw [getElem?_set_self_of_lt _ hslotlen1]
              rfl
            · rw [List.getElem?_set_ne (fun hh => hif hh.symm)] at hi
              have hne2 : sl2 ≠ slot := by
                intro hh
                subst hh
                exact g6 i hif hi
              rw [List.getElem?_set_ne (fun hh => hne2 hh.symm)]
              exact g5 i sl2 hif hi
          · rw [hmap, hent]
            intro k' sl2 hk'
            rw [map_kv_getElem_key hkv sl2]
            exact hinv.map_key k' sl2 hk'
          · rw [hmap, hent]
            intro sl2 e3 he3
            have hkey := map_kv_getElem_key hkv sl2
            rw [he3] at hkey
            cases hs3 : s.entries[sl2]? with
            | none => rw [hs3] at hkey; simp at hkey
            | some e4 =>
              rw [hs3] at hkey
              simp at hkey
              rw [hkey]
              exact hinv.map_rev sl2 e4 hs3
          · rw [hmap]; exact hinv.map_nodup
          · rw [hmap, hring]
            simp only [List.length_set]
            rw [g1]
            exact hinv.map_len
          · exact hratio
          · rw [hmp]
            exact hmud
          · exact hlimit
        apply hmain
        · rfl
        · rfl
        · rfl
        · exact updTuning_mp _ _
        · exact updTuning_top _ _
        · exact updTuning_ratio_le _ _ hinv.ratio_le
        · exact updTuning_mud_le _ _ hinv.limit_eq hinv.mud_le
        · exact updTuning_limit_eq _ _ hinv.limit_eq

/-! ### Reachable states satisfy the invariant -/

/-- A freshly constructed cache satisfies the structural invariant. -/
theorem new_inv {K V : Type} [DecidableEq K] {cap : Nat} {s : SwapCache K V}
    (h : SwapCache.new K V cap = some s) : CacheInv cap s := by
  simp only [SwapCache.new] at h
  by_cases hc : cap = 0
  · rw [if_pos hc] at h
    exact absurd h (by simp)
  · rw [if_neg hc] at h
    obtain rfl : _ = s := Option.some.inj h
    have hcap1 : 1 ≤ cap := by omega
    refine ⟨?_, ?_, ?_, ?_, ?_, ?_, ?_, ?_, ?_, ?_, ?_, ?_, ?_, ?_⟩
    · rfl
    · simp [Lru.set_min_update_limit]
    · dsimp only [Lru.set_min_update_limit]
      omega
    · simp [Lru.set_min_update_limit]
    · intro _
      rfl
    · intro i sl hi
      simp [Lru.set_min_update_limit] at hi
    · intro i sl hi
      simp [Lru.set_min_update_limit] at hi
    · intro k sl hk
      simp [mapLookup] at hk
    · intro sl e he
      simp at he
    · simp
    · rfl
    · dsimp only [Lru.set_min_update_limit, DEFAULT_MOVE]
      omega
    · dsimp only [Lru.set_min_update_limit, DEFAULT_MOVE]
      omega
    · rfl

/-- Every reachable state satisfies the structural invariant. -/
theorem reach_inv {K V : Type} [DecidableEq K] {cap : Nat} {s : SwapCache K V}
    (h : Reach K V cap s) : CacheInv cap s := by
  induction h with
  | init s h0 => exact new_inv h0
  | step s s' op hr hstep ih =>
    cases op with
    | putOp k v =>
      exact put_inv ih (by simpa [runOp] using hstep)
    | getOp k =>
      simp only [runOp, SwapCache.get] at hstep
      cases hu : s.update k 10 with
      | none => simp [hu] at hstep
      | some out =>
        obtain ⟨c1, vv, it⟩ := out
        simp only [hu] at hstep
        obtain rfl : c1 = s' := Option.some.inj hstep
        exact update_inv ih hu

/-! ### Concrete reachable states used as witnesses -/

/-- The state `SwapCache.new Nat Nat 8` produces. -/
def newCap8 : SwapCache Nat Nat :=
  { mapping := []
    lru := { ring := [], top := 0, max_pointer := 7, move_ratio := 50,
             min_update_distance := 4, min_update_limit := 5,
             long_distance := 2 }
    entries := [] }

/-- The state `SwapCache.new Nat Nat 10` produces. -/
def newCap10 : SwapCache Nat Nat :=
  { mapping := []
    lru := { ring := [], top := 0, max_pointer := 9, move_ratio := 50,
             min_update_distance := 5, min_update_limit := 6,
             long_distance := 2 }
    entries := [] }

/-- The state reached from `SwapCache.new Nat Nat 1` by `put 5 7`. -/
def wStateCap1 : SwapCache Nat Nat :=
  { mapping := [(5, 0)]
    lru := { ring := [0], top := 0, max_pointer := 0, move_ratio := 50,
             min_update_distance := 0, min_update_limit := 1,
             long_distance := 0 }
    entries := [⟨5, 7, 0⟩] }

theorem wStateCap1_reach : Reach Nat Nat 1 wStateCap1 :=
  Reach.step _ wStateCap1 (CacheOp.putOp 5 7) (Reach.init _ rfl) rfl

/-- Number of walk iterations `update` with step budget 10 performs
(0 when the update panics). -/
def itersOf (c : SwapCache Nat Nat) (k : Nat) : Nat :=
  match c.update k 10 with
  | none => 0
  | some (_, _, iters) => iters

/-! ### The claims -/

/-- C1: construction with capacity 0 is not rejected by an explicit
configuration error: `SwapCache::new` computes `size - 1` unchecked, and
for size 0 that subtraction underflows usize (modelled by `none`).  For
every capacity >= 1 construction succeeds with
`max_pointer = capacity - 1`. -/
theorem c1_new_zero_underflows :
    SwapCache.new Nat Nat 0 = none ∧
    ∀ c : Nat, (SwapCache.new Nat Nat (c + 1)).map
      (fun s => s.lru.max_pointer) = some c := by
  constructor
  · rfl
  · intro c
    simp [SwapCache.new, Lru.set_min_update_limit]

/-- C2 counterexample: running `ratioZeroCodes` from a fresh capacity-8
cache panics nowhere and ends in a state whose `move_ratio` is 0,
contradicting the claimed invariant `1 <= move_ratio`. -/
theorem c2_counterexample_ratio_zero : ratioZeroResult = some 0 := by rfl

/-- C2 (amended): in every reachable state `move_ratio <= 99` (and, being
a natural number, `move_ratio >= 0`); the claimed lower bound 1 fails
because the decrement guard in `update` is `move_ratio >= 1`, which lets
`move_ratio` reach 0 transiently. -/
theorem c2_move_ratio_bounded {K V : Type} [DecidableEq K] {cap : Nat}
    {s : SwapCache K V} (h : Reach K V cap s) : s.lru.move_ratio ≤ 99 :=
  (reach_inv h).ratio_le

theorem c2_move_ratio_bounded_witness : newCap8.lru.move_ratio ≤ 99 := by
  have h : Reach Nat Nat 8 newCap8 := Reach.init _ rfl
  exact c2_move_ratio_bounded h

/-- C3 counterexample: after `walkIterCodes` fills a capacity-40 cache,
`update` on the present key 5 with the step budget 10 used by `get`
passes the fast path and performs 17 ring-walk iterations, more than the
claimed bound of `count = 10`. -/
theorem c3_counterexample_seventeen_iters :
    walkIterResult = some (true, 17) := by rfl

/-- C3 (amended): with the step budget 10 that `get` uses, the ring-walk
loop of `update` performs at most `2 * count - 1 = 19` iterations (the
bound `count` claimed by the spec is exceeded because
`steep_size = max (move_distance / count) 1` floors, so up to
`2 * count - 1` steps of size 1 can be needed). -/
theorem c3_walk_iters_le_nineteen {K V : Type} [DecidableEq K]
    (c : SwapCache K V) (k : K) (s' : SwapCache K V) (v : Option V)
    (iters : Nat) (h : c.update k 10 = some (s', v, iters)) : iters ≤ 19 := by
  simp only [SwapCache.update] at h
  cases hsl : mapLookup c.mapping k with
  | none =>
    simp only [hsl, Option.some.injEq, Prod.mk.injEq] at h
    omega
  | some slot =>
    simp only [hsl] at h
    cases heq : c.entries[slot]? with
    | none => simp [heq] at h
    | some e =>
      simp only [heq] at h
      generalize hdist : (if e.index ≤ c.lru.top then c.lru.top - e.index
        else c.lru.top + c.lru.max_pointer - e.index) = dist at h
      by_cases hfast : dist ≤ c.lru.min_update_distance
      · rw [if_pos hfast] at h
        simp only [Option.some.injEq, Prod.mk.injEq] at h
        omega
      · rw [if_neg hfast] at h
        generalize hmd : dist * c.lru.move_ratio / 100 = md at h
        generalize hsteep : max (md / 10) 1 = steep at h
        cases hw : walkLoop (md + 1) c.lru.ring c.entries e.index md steep
            c.lru.max_pointer with
        | none => simp [hw] at h
        | some out =>
          obtain ⟨r1, e1, fin, its⟩ := out
          simp only [hw] at h
          cases he2 : e1[slot]? with
          | none => simp [he2] at h
          | some e2 =>
            simp only [he2] at h
            cases hrs : listSetChecked r1 fin slot with
            | none => simp [hrs] at h
            | some r2 =>
              simp only [hrs, Option.some.injEq, Prod.mk.injEq] at h
              obtain ⟨h1, h2, h3⟩ := h
              subst h3
              have hbound := walkLoop_iters c.lru.max_pointer (md + 1)
                c.lru.ring c.entries e.index md steep r1 e1 fin its hw
              rw [← hsteep] at hbound
              exact iters_le_nineteen md its hbound

theorem c3_walk_iters_le_nineteen_witness : itersOf wStateCap1 5 ≤ 19 := by
  have h : wStateCap1.update 5 10 = some (wStateCap1, some 7, 0) := rfl
  have h19 := c3_walk_iters_le_nineteen wStateCap1 5 wStateCap1 (some 7) 0 h
  simpa [itersOf, h] using h19

/-- C4 counterexample: running `mudLimitCodes` from a fresh capacity-10
cache ends with `min_update_distance = 6` and `min_update_limit = 5`,
contradicting the claimed invariant
`min_update_distance <= min_update_limit`: the sixth promotion raises
`move_ratio` from 55 to 56 and the recomputed limit drops below the
current `min_update_distance`. -/
theorem c4_counterexample_mud_exceeds_limit :
    mudLimitResult = some (6, 5) := by rfl

/-- C4 (amended): in every reachable state
`min_update_distance <= max_pointer + 1` (that is, at most the capacity);
the claimed relation `min_update_distance <= min_update_limit` can fail
after an update that increments `move_ratio` and thereby recomputes
`min_update_limit` below the current `min_update_distance`. -/
theorem c4_mud_bounded {K V : Type} [DecidableEq K] {cap : Nat}
    {s : SwapCache K V} (h : Reach K V cap s) :
    s.lru.min_update_distance ≤ s.lru.max_pointer + 1 :=
  (reach_inv h).mud_le

theorem c4_mud_bounded_witness :
    newCap10.lru.min_update_distance ≤ newCap10.lru.max_pointer + 1 := by
  have h : Reach Nat Nat 10 newCap10 := Reach.init _ rfl
  exact c4_mud_bounded h

/-- C5: in every reachable state, `entries[ring[i]].index = i` for every
ring position `i` in use, and `entries[mapping[k]].key = k` for every key
`k` in the mapping. -/
theorem c5_ring_mapping_invariant {K V : Type} [DecidableEq K] {cap : Nat}
    {s : SwapCache K V} (h : Reach K V cap s) (i sl : Nat) (k : K) :
    (s.lru.ring[i]? = some sl →
      (s.entries[sl]?).map (fun e => e.index) = some i) ∧
    (mapLookup s.mapping k = some sl →
      (s.entries[sl]?).map (fun e => e.key) = some k) :=
  ⟨fun hr => (reach_inv h).pairing i sl hr,
   fun hm => (reach_inv h).map_key k sl hm⟩

theorem c5_ring_mapping_invariant_witness :
    ((wStateCap1.entries[0]?).map (fun e => e.index) = some 0) ∧
    ((wStateCap1.entries[0]?).map (fun e => e.key) = some 5) := by
  have h := c5_ring_mapping_invariant wStateCap1_reach 0 0 5
  exact ⟨h.1 rfl, h.2 rfl⟩

/-- C7: with capacity 20, inserting the 26 keys `a`..`z` (values 0-25)
and calling `get 'a'` after every put, the final `get 'a'` still returns
the original value 0 while `get 'g'` (the 7th key, never accessed)
returns absent. -/
theorem c7_hot_key_protected : hotKeyResult = some (some 0, none) := by rfl

/-- C8: `put` on a key already present in the mapping is a complete
no-op: the state, including the stored value, the ring, the entries and
all tuning parameters, is returned unchanged. -/
theorem c8_put_present_noop {K V : Type} [DecidableEq K]
    (c : SwapCache K V) (k : K) (v : V)
    (h : mapContains c.mapping k = true) : c.put k v = some c := by
  simp only [SwapCache.put]
  rw [if_pos h]

theorem c8_put_present_noop_witness : wStateCap1.put 5 99 = some wStateCap1 :=
  c8_put_present_noop wStateCap1 5 99 rfl

/-- C9: in every reachable state of a capacity-`cap` cache, the mapping
holds at most `cap` live keys and the ring at most `cap` slots. -/
theorem c9_capacity_bound {K V : Type} [DecidableEq K] {cap : Nat}
    {s : SwapCache K V} (h : Reach K V cap s) :
    s.mapping.length ≤ cap ∧ s.lru.ring.length ≤ cap := by
  have h1 := (reach_inv h).map_len
  have h2 := (reach_inv h).ring_cap
  omega

theorem c9_capacity_bound_witness :
    wStateCap1.mapping.length ≤ 1 ∧ wStateCap1.lru.ring.length ≤ 1 :=
  c9_capacity_bound wStateCap1_reach

/-- C10: a reachable out-of-bounds panic.  After `oobCodes` (which only
fills 55 of the 60 slots while driving `move_ratio` up to 93), key 27 is
present in the mapping, yet `update` on it — exactly what `get` performs —
computes a walk destination of 55, reads `ring[55]` of a 55-element ring
and panics, instead of completing as the claim requires. -/
theorem c10_oob_panic_reachable : oobResult = some (true, true) := by rfl

/-! ### FIFO eviction: machinery for pure put sequences -/

theorem getElem?_append_self {α : Type} (l : List α) (a : α) :
    (l ++ [a])[l.length]? = some a := by
  rw [List.getElem?_append_right (le_refl _)]
  simp

theorem nodup_getElem?_eq {α : Type} {l : List α} (h : l.Nodup) {i j : Nat}
    {a : α} (h1 : l[i]? = some a) (h2 : l[j]? = some a) : i = j := by
  by_contra hne
  rcases Nat.lt_or_ge i j with hlt | hge
  · have hd := List.nodup_iff_getElem?_ne_getElem?.1 h i j hlt
      (getElem?_some_lt h2)
    exact hd (h1.trans h2.symm)
  · have hlt : j < i := by omega
    have hd := List.nodup_iff_getElem?_ne_getElem?.1 h j i hlt
      (getElem?_some_lt h1)
    exact hd (h2.trans h1.symm)

theorem nodup_keys_index_eq {K V : Type} {kvs : List (K × V)}
    (hnd : (kvs.map Prod.fst).Nodup) {i j : Nat} {p q : K × V}
    (hi : kvs[i]? = some p) (hj : kvs[j]? = some q) (hpq : p.1 = q.1) :
    i = j := by
  apply nodup_getElem?_eq hnd
  · rw [getElem?_map_eq, hi]; rfl
  · rw [getElem?_map_eq, hj]; exact congrArg some hpq.symm

/-- A successful walk preserves list lengths, lands inside the ring, and
never changes any entry's key or value (only `index` fields move). -/
theorem walkLoop_kv {K V : Type} (mp : Nat) :
    ∀ (fuel : Nat) (ring : List Nat) (entries : List (CacheEntry K V))
      (cur md steep : Nat)
      (r' : List Nat) (e' : List (CacheEntry K V)) (fin iters : Nat),
      walkLoop fuel ring entries cur md steep mp = some (r', e', fin, iters) →
      r'.length = ring.length ∧ e'.length = entries.length ∧
      fin < ring.length ∧
      e'.map (fun e => (e.key, e.value)) =
        entries.map (fun e => (e.key, e.value)) := by
  intro fuel
  induction fuel with
  | zero =>
    intro ring entries cur md steep r' e' fin iters hrun
    simp [walkLoop] at hrun
  | succ f ih =>
    intro ring entries cur md steep r' e' fin iters hrun
    simp only [walkLoop] at hrun
    split at hrun
    · exact absurd hrun (by simp)
    rename_i demoted hrn
    split at hrun
    · exact absurd hrun (by simp)
    rename_i de hde
    split at hrun
    · exact absurd hrun (by simp)
    rename_i ring1 hring1
    obtain ⟨hcurlen, hring1eq⟩ := listSetChecked_some hring1
    subst hring1eq
    have hkv : (entries.set demoted { de with index := cur }).map
        (fun e => (e.key, e.value)) =
        entries.map (fun e => (e.key, e.value)) := by
      rw [List.map_set]
      apply listSet_self
      rw [getElem?_map_eq, hde]
      rfl
    by_cases hmd : md > steep
    · rw [if_pos hmd] at hrun
      cases hrec : walkLoop f (ring.set cur demoted)
          (entries.set demoted { de with index := cur })
          (if cur + steep ≥ mp then cur + steep - mp else cur + steep)
          (md - steep) steep mp with
      | none => rw [hrec] at hrun; exact absurd hrun (by simp)
      | some out =>
        obtain ⟨r2, e2, fin2, it2⟩ := out
        simp only [hrec, Option.some.injEq, Prod.mk.injEq] at hrun
        obtain ⟨hq1, hq2, hq3, hq4⟩ := hrun
        subst hq1; subst hq2; subst hq3
        obtain ⟨ha, hb, hcf, hd⟩ := ih _ _ _ _ _ _ _ _ _ hrec
        refine ⟨?_, ?_, ?_, ?_⟩
        · rw [ha]; simp
        · rw [hb]; simp
        · simp only [List.length_set] at hcf
          exact hcf
        · rw [hd, hkv]
    · rw [if_neg hmd] at hrun
      simp only [Option.some.injEq, Prod.mk.injEq] at hrun
      obtain ⟨hq1, hq2, hq3, hq4⟩ := hrun
      subst hq1; subst hq2; subst hq3
      exact ⟨by simp, by simp, getElem?_some_lt hrn, hkv⟩

/-- On a full ring, `update` with `get`'s budget on a present key always
succeeds and returns the entry's stored value. -/
theorem update_success_full {K V : Type} [DecidableEq K] {cap : Nat}
    {s : SwapCache K V} (hinv : CacheInv cap s)
    (hfull : s.lru.ring.length = cap) (k : K) (slot : Nat)
    (e : CacheEntry K V) (hsl : mapLookup s.mapping k = some slot)
    (he : s.entries[slot]? = some e) :
    ∃ (s' : SwapCache K V) (its : Nat),
      s.update k 10 = some (s', some e.value, its) := by
  have hdle := distance_le_mp hinv he
  have hL : s.lru.max_pointer + 1 = s.lru.ring.length := by
    rw [hfull]; exact hinv.mp_eq
  have hel : s.entries.length = s.lru.ring.length := hinv.entries_len
  have hcur : e.index < s.lru.ring.length := (hinv.slot_position he).1
  simp only [SwapCache.update, hsl, he]
  generalize hdist : (if e.index ≤ s.lru.top then s.lru.top - e.index
      else s.lru.top + s.lru.max_pointer - e.index) = dist at hdle ⊢
  by_cases hfast : dist ≤ s.lru.min_update_distance
  · rw [if_pos hfast]
    exact ⟨s, 0, rfl⟩
  · rw [if_neg hfast]
    have hd1 : 1 ≤ dist := by omega
    have hmp1 : 1 ≤ s.lru.max_pointer := by omega
    have h1 : dist * s.lru.move_ratio ≤ dist * 99 :=
      Nat.mul_le_mul_left dist hinv.ratio_le
    have hmdlt : dist * s.lru.move_ratio / 100 < dist := by omega
    generalize hmd : dist * s.lru.move_ratio / 100 = md at hmdlt ⊢
    have hs2 : max (md / 10) 1 ≤ s.lru.max_pointer :=
      max_le (by omega) (by omega)
    obtain ⟨out, hout⟩ := walkLoop_success hL (md + 1) s.lru.ring s.entries
      e.index md (max (md / 10) 1) rfl hel hcur (le_max_right _ _) hs2
      (le_refl _) (fun i sl hi => by have := hinv.ring_vals i sl hi; omega)
    obtain ⟨r1, e1, fin, its⟩ := out
    simp only [hout]
    obtain ⟨hr1, he1, hfin, hkv⟩ := walkLoop_kv s.lru.max_pointer (md + 1)
      s.lru.ring s.entries e.index md (max (md / 10) 1) r1 e1 fin its hout
    have hv := map_kv_getElem_value hkv slot
    rw [he] at hv
    cases he2 : e1[slot]? with
    | none => rw [he2] at hv; simp at hv
    | some e2 =>
      rw [he2] at hv
      have hval : e2.value = e.value := by simpa using hv
      simp only [he2]
      simp only [listSetChecked_of_lt slot
        (show fin < r1.length by omega)]
      exact ⟨_, its, by rw [hval]⟩

theorem runOps_append {K V : Type} [DecidableEq K] (l1 l2 : List (CacheOp K V)) :
    ∀ s : SwapCache K V,
      runOps s (l1 ++ l2) = match runOps s l1 with
        | none => none
        | some s1 => runOps s1 l2 := by
  induction l1 with
  | nil => intro s; simp [runOps]
  | cons op rest ih =>
    intro s
    simp only [List.cons_append, runOps]
    cases runOp s op with
    | none => rfl
    | some s1 => exact ih s1

theorem runOps_reach {K V : Type} [DecidableEq K] {cap : Nat}
    {s' : SwapCache K V} (ops : List (CacheOp K V)) :
    ∀ s : SwapCache K V, Reach K V cap s → runOps s ops = some s' →
      Reach K V cap s' := by
  induction ops with
  | nil =>
    intro s h hrun
    simp only [runOps, Option.some.injEq] at hrun
    rw [← hrun]; exact h
  | cons op rest ih =>
    intro s h hrun
    simp only [runOps] at hrun
    cases hop : runOp s op with
    | none => rw [hop] at hrun; exact absurd hrun (by simp)
    | some s1 =>
      simp only [hop] at hrun
      exact ih s1 (Reach.step s s1 op h hop) hrun

/-! ### Arithmetic of the last write to a ring slot -/

/-- Index of the last element of `0..n-1` congruent to `j` modulo `c`:
the put (in a pure put sequence) that last wrote ring slot `j`. -/
def lastWriteIdx (n c j : Nat) : Nat := j + c * ((n - 1 - j) / c)

theorem lastWriteIdx_small (n c j : Nat) (hn : n ≤ c) (hj : j < n) :
    lastWriteIdx n c j = j := by
  simp only [lastWriteIdx]
  have h0 : (n - 1 - j) / c = 0 := Nat.div_eq_of_lt (by omega)
  simp [h0]

theorem lastWriteIdx_lt (n c j : Nat) (hc : 1 ≤ c) (hj : j < n) :
    lastWriteIdx n c j < n := by
  simp only [lastWriteIdx]
  have h1 : (n - 1 - j) / c * c ≤ n - 1 - j := Nat.div_mul_le_self _ c
  rw [Nat.mul_comm] at h1
  omega

theorem lastWriteIdx_ge_sub (n c j : Nat) (hc : 1 ≤ c) (hj : j < n) :
    n ≤ lastWriteIdx n c j + c := by
  simp only [lastWriteIdx]
  obtain ⟨q, hq⟩ : ∃ q, (n - 1 - j) / c = q := ⟨_, rfl⟩
  have hdm := Nat.div_add_mod (n - 1 - j) c
  rw [hq] at hdm ⊢
  have hmod : (n - 1 - j) % c < c := Nat.mod_lt _ (by omega)
  omega

theorem lastWriteIdx_mod (n c j : Nat) :
    lastWriteIdx n c j % c = j % c := by
  simp only [lastWriteIdx]
  exact Nat.add_mul_mod_self_left j c _

theorem le_lastWriteIdx (n c j i : Nat) (hc : 1 ≤ c) (hj : j < c)
    (hi : i < n) (himod : i % c = j) : i ≤ lastWriteIdx n c j := by
  simp only [lastWriteIdx]
  obtain ⟨qi, hqi⟩ : ∃ q, i / c = q := ⟨_, rfl⟩
  obtain ⟨qn, hqn⟩ : ∃ q, (n - 1 - j) / c = q := ⟨_, rfl⟩
  have hdmi := Nat.div_add_mod i c
  have hdmn := Nat.div_add_mod (n - 1 - j) c
  have hmodn : (n - 1 - j) % c < c := Nat.mod_lt _ (by omega)
  rw [hqi, himod] at hdmi
  rw [hqn] at hdmn
  rw [hqn]
  have hqle : qi ≤ qn := by
    by_contra hlt
    have h1 : c * (qn + 1) ≤ c * qi := Nat.mul_le_mul_left c (by omega)
    have h2 : c * (qn + 1) = c * qn + c := Nat.mul_succ c qn
    omega
  have h3 : c * qi ≤ c * qn := Nat.mul_le_mul_left c hqle
  omega

theorem mod_window_eq (c n a b : Nat) (hc : 1 ≤ c) (ha : a < n) (hb : b < n)
    (ha2 : n ≤ a + c) (hb2 : n ≤ b + c) (hmod : a % c = b % c) : a = b := by
  obtain ⟨qa, hqa⟩ : ∃ q, a / c = q := ⟨_, rfl⟩
  obtain ⟨qb, hqb⟩ : ∃ q, b / c = q := ⟨_, rfl⟩
  have hda := Nat.div_add_mod a c
  have hdb := Nat.div_add_mod b c
  rw [hqa, hmod] at hda
  rw [hqb] at hdb
  have hqeq : qa = qb := by
    by_contra hne
    rcases Nat.lt_or_ge qa qb with hlt | hge
    · have h1 : c * (qa + 1) ≤ c * qb := Nat.mul_le_mul_left c (by omega)
      have h2 : c * (qa + 1) = c * qa + c := Nat.mul_succ c qa
      omega
    · have hlt2 : qb < qa := by omega
      have h1 : c * (qb + 1) ≤ c * qa := Nat.mul_le_mul_left c (by omega)
      have h2 : c * (qb + 1) = c * qb + c := Nat.mul_succ c qb
      omega
  rw [hqeq] at hda
  omega

theorem lastWriteIdx_window (n c i : Nat) (hc : 1 ≤ c) (hi : i < n)
    (hw : n ≤ i + c) : lastWriteIdx n c (i % c) = i := by
  have hjc : i % c < c := Nat.mod_lt _ (by omega)
  have himod : i % c ≤ i := Nat.mod_le i c
  have h1 : i ≤ lastWriteIdx n c (i % c) :=
    le_lastWriteIdx n c (i % c) i hc hjc hi rfl
  have h2 : lastWriteIdx n c (i % c) < n :=
    lastWriteIdx_lt n c (i % c) hc (by omega)
  have h3 := lastWriteIdx_mod n c (i % c)
  have h4 : (i % c) % c = i % c := Nat.mod_eq_of_lt hjc
  have h5 : n ≤ lastWriteIdx n c (i % c) + c :=
    lastWriteIdx_ge_sub n c (i % c) hc (by omega)
  exact mod_window_eq c n _ i hc h2 hi h5 hw (by omega)

theorem lastWriteIdx_stable (n c j : Nat) (hc : 1 ≤ c) (hj : j < c)
    (hcn : c ≤ n) (hne : j ≠ n % c) :
    lastWriteIdx (n + 1) c j = lastWriteIdx n c j := by
  have hjn : j < n := by omega
  have hjn1 : j < n + 1 := by omega
  have hjj : j % c = j := Nat.mod_eq_of_lt hj
  have l1 := lastWriteIdx_lt (n + 1) c j hc hjn1
  have l2 := lastWriteIdx_ge_sub (n + 1) c j hc hjn1
  have l3 := lastWriteIdx_mod (n + 1) c j
  have m1 := lastWriteIdx_lt n c j hc hjn
  have m2 := lastWriteIdx_ge_sub n c j hc hjn
  have m3 := lastWriteIdx_mod n c j
  have hne2 : lastWriteIdx (n + 1) c j ≠ n := by
    intro hEq
    rw [hEq, hjj] at l3
    exact hne l3.symm
  apply mod_window_eq c n _ _ hc (by omega) m1 (by omega) m2
  rw [l3, m3]

theorem succ_mod_char (n c : Nat) (hc : 1 ≤ c) :
    (n + 1) % c = if n % c + 1 = c then 0 else n % c + 1 := by
  have hdm := Nat.div_add_mod n c
  have hmod : n % c < c := Nat.mod_lt _ (by omega)
  obtain ⟨q, hq⟩ : ∃ q, n / c = q := ⟨_, rfl⟩
  rw [hq] at hdm
  by_cases hcase : n % c + 1 = c
  · rw [if_pos hcase]
    have hms : c * (q + 1) = c * q + c := Nat.mul_succ c q
    have he : n + 1 = c * (q + 1) := by omega
    rw [he]
    exact Nat.mul_mod_right c (q + 1)
  · rw [if_neg hcase]
    have he : n + 1 = n % c + 1 + c * q := by omega
    rw [he, Nat.add_mul_mod_self_left]
    exact Nat.mod_eq_of_lt (by omega)

/-- Closed form of the cache state after a sequence of puts of distinct
keys with no intervening gets, from a fresh cache of capacity `c`: the
ring is the identity permutation over the filled prefix, `top` cycles
through it, the tuning parameters follow their deterministic schedule
(`move_ratio` never changes because no promotion ever runs), each slot
`j` holds the key/value pair of the put that last wrote it, and the
mapping contains exactly the most recent `min n c` keys. -/
structure FifoState {K V : Type} [DecidableEq K] (c : Nat)
    (kvs : List (K × V)) (s : SwapCache K V) : Prop where
  ringF : s.lru.ring = List.range (min kvs.length c)
  topF : s.lru.top = kvs.length % c
  mpF : s.lru.max_pointer = c - 1
  ratioF : s.lru.move_ratio = 50
  mudF : s.lru.min_update_distance = c * 50 / 100 - (kvs.length - c)
  limitF : s.lru.min_update_limit = 1 + (c - 1) - (c - 1) * 50 / 100
  longF : s.lru.long_distance = c / 4
  entriesLen : s.entries.length = min kvs.length c
  entriesF : ∀ j : Nat, j < min kvs.length c →
      s.entries[j]? = (kvs[lastWriteIdx kvs.length c j]?).map
        (fun p => ⟨p.1, p.2, j⟩)
  windowF : ∀ (i : Nat) (p : K × V), kvs[i]? = some p →
      kvs.length ≤ i + c → mapLookup s.mapping p.1 = some (i % c)
  oldF : ∀ (i : Nat) (p : K × V), kvs[i]? = some p →
      i + c < kvs.length → mapLookup s.mapping p.1 = none
  domF : ∀ k : K, (∀ (i : Nat) (p : K × V), kvs[i]? = some p → p.1 ≠ k) →
      mapLookup s.mapping k = none

theorem fifo_new {K V : Type} [DecidableEq K] {c : Nat} {s : SwapCache K V}
    (hc : 1 ≤ c) (h : SwapCache.new K V c = some s) : FifoState c [] s := by
  simp only [SwapCache.new] at h
  rw [if_neg (by omega : ¬ c = 0)] at h
  have hs := (Option.some.inj h).symm
  subst hs
  refine ⟨?_, ?_, ?_, ?_, ?_, ?_, ?_, ?_, ?_, ?_, ?_, ?_⟩
  · dsimp only [Lru.set_min_update_limit, DEFAULT_MOVE]
    simp
  · dsimp only [Lru.set_min_update_limit, DEFAULT_MOVE]
    simp
  · rfl
  · rfl
  · dsimp only [Lru.set_min_update_limit, DEFAULT_MOVE]
    simp only [List.length_nil]
    omega
  · dsimp only [Lru.set_min_update_limit, DEFAULT_MOVE]
  · rfl
  · dsimp only [Lru.set_min_update_limit, DEFAULT_MOVE]
    simp
  · intro j hj
    simp at hj
  · intro i p hip
    simp at hip
  · intro i p hip
    simp at hip
  · intro k hk
    rfl

theorem fifo_put {K V : Type} [DecidableEq K] {c : Nat} {kvs : List (K × V)}
    {s : SwapCache K V} (hc : 1 ≤ c) (hf : FifoState c kvs s)
    (hnd : (kvs.map Prod.fst).Nodup) (k : K) (v : V)
    (hnew : ∀ (i : Nat) (p : K × V), kvs[i]? = some p → p.1 ≠ k) :
    ∃ s' : SwapCache K V, s.put k v = some s' ∧
      FifoState c (kvs ++ [(k, v)]) s' := by
  have hlen1 : (kvs ++ [(k, v)]).length = kvs.length + 1 := by simp
  have hlookk : mapLookup s.mapping k = none := hf.domF k hnew
  have hcont : ¬ (mapContains s.mapping k = true) := by
    simp only [mapContains, hlookk]
    simp
  simp only [SwapCache.put]
  rw [if_neg hcont]
  rcases Nat.lt_or_ge kvs.length c with hnc | hnc
  · -- fill branch: the ring is still growing
    have hminn : min kvs.length c = kvs.length := Nat.min_eq_left (by omega)
    have htopn : kvs.length % c = kvs.length := Nat.mod_eq_of_lt hnc
    have hfill : s.lru.ring.length ≤ s.lru.top := by
      rw [hf.ringF, List.length_range, hf.topF, hminn, htopn]
    rw [if_pos hfill]
    refine ⟨_, rfl, ?_⟩
    have hslot : s.entries.length = kvs.length := by
      rw [hf.entriesLen, hminn]
    have hmin1 : min (kvs.length + 1) c = kvs.length + 1 :=
      Nat.min_eq_left (by omega)
    refine ⟨?_, ?_, ?_, ?_, ?_, ?_, ?_, ?_, ?_, ?_, ?_, ?_⟩
    · rw [putFinish_ring]
      dsimp only
      rw [hf.ringF, hminn, hslot, hlen1, hmin1]
      exact (List.range_succ kvs.length).symm
    · rw [putFinish_top]
      dsimp only
      rw [hlen1, succ_mod_char _ _ hc, hf.topF, hf.mpF, htopn]
      by_cases h1 : kvs.length + 1 = c
      · rw [if_pos (show kvs.length + 1 > c - 1 by omega), if_pos h1]
      · rw [if_neg (show ¬ kvs.length + 1 > c - 1 by omega), if_neg h1]
    · rw [putFinish_mp]
      dsimp only
      exact hf.mpF
    · rw [putFinish_ratio]
      dsimp only
      exact hf.ratioF
    · rw [putFinish_mud]
      dsimp only
      rw [hf.mudF, hlen1]
      omega
    · rw [putFinish_limit]
      dsimp only
      exact hf.limitF
    · rw [putFinish_long]
      dsimp only
      exact hf.longF
    · rw [putFinish_entries]
      dsimp only
      rw [hlen1, hmin1]
      simp [hslot]
    · intro j hj
      rw [putFinish_entries]
      dsimp only
      rw [hlen1, hmin1] at hj
      rw [hlen1]
      have hlw : lastWriteIdx (kvs.length + 1) c j = j :=
        lastWriteIdx_small _ _ _ (by omega) (by omega)
      rw [hlw]
      rcases Nat.lt_or_ge j kvs.length with hjn | hjn
      · rw [getElem?_append_left (show j < s.entries.length by omega)]
        rw [getElem?_append_left hjn]
        have he := hf.entriesF j (by rw [hminn]; omega)
        have hlw2 : lastWriteIdx kvs.length c j = j :=
          lastWriteIdx_small _ _ _ (by omega) (by omega)
        rw [hlw2] at he
        exact he
      · have hjeq : j = kvs.length := by omega
        subst hjeq
        have h1 := getElem?_append_self s.entries
          (⟨k, v, s.entries.length⟩ : CacheEntry K V)
        rw [hslot] at h1
        rw [hslot, h1, getElem?_append_self]
        rfl
    · intro i p hip hwin
      rw [putFinish_mapping]
      dsimp only
      rw [hlen1] at hwin
      have hlt := getElem?_some_lt hip
      rw [hlen1] at hlt
      rcases Nat.lt_or_ge i kvs.length with hin | hin
      · rw [getElem?_append_left hin] at hip
        have hne := hnew i p hip
        rw [mapLookup_mapInsert, if_neg hne]
        exact hf.windowF i p hip (by omega)
      · have hieq : i = kvs.length := by omega
        subst hieq
        rw [getElem?_append_self] at hip
        have hp1 : p.1 = k := by
          have hq := Option.some.inj hip
          rw [← hq]
        rw [mapLookup_mapInsert, if_pos hp1, hslot, htopn]
    · intro i p hip hiold
      exfalso
      rw [hlen1] at hiold
      omega
    · intro k2 hk2
      rw [putFinish_mapping]
      dsimp only
      have hk2k : ¬ (k2 = k) := by
        intro hEq
        exact hk2 kvs.length (k, v) (getElem?_append_self kvs (k, v)) hEq.symm
      rw [mapLookup_mapInsert, if_neg hk2k]
      apply hf.domF
      intro i p hip
      exact hk2 i p (by
        rw [getElem?_append_left (getElem?_some_lt hip)]
        exact hip)
  · -- evict branch: the ring is full, overwrite the slot at top
    have hminc : min kvs.length c = c := Nat.min_eq_right (by omega)
    have hmodlt : kvs.length % c < c := Nat.mod_lt _ (by omega)
    have hentlen : s.entries.length = c := by rw [hf.entriesLen, hminc]
    have hnfill : ¬ (s.lru.ring.length ≤ s.lru.top) := by
      rw [hf.ringF, List.length_range, hf.topF, hminc]
      omega
    rw [if_neg hnfill]
    have hrt : s.lru.ring[s.lru.top]? = some (kvs.length % c) := by
      rw [hf.ringF, hf.topF, hminc]
      exact List.getElem?_range hmodlt
    have hw : lastWriteIdx kvs.length c (kvs.length % c) = kvs.length - c := by
      have hsub : (kvs.length - c) % c = kvs.length % c := by
        conv_rhs => rw [show kvs.length = (kvs.length - c) + c from by omega]
        rw [Nat.add_mod_right]
      rw [← hsub]
      exact lastWriteIdx_window kvs.length c (kvs.length - c) hc (by omega)
        (by omega)
    have hwlt : kvs.length - c < kvs.length := by omega
    cases hpw : kvs[kvs.length - c]? with
    | none =>
      rw [List.getElem?_eq_getElem hwlt] at hpw
      exact absurd hpw (by simp)
    | some pw =>
    have hes : s.entries[kvs.length % c]? =
        some ⟨pw.1, pw.2, kvs.length % c⟩ := by
      have he := hf.entriesF (kvs.length % c) (by rw [hminc]; exact hmodlt)
      rw [hw, hpw] at he
      exact he
    simp only [hrt, hes]
    have hr50 := hf.ratioF
    have hmain : ∀ t : SwapCache K V,
        t.mapping = mapRemove s.mapping pw.1 →
        t.entries = s.entries.set (kvs.length % c) ⟨k, v, s.lru.top⟩ →
        t.lru.ring = s.lru.ring →
        t.lru.top = s.lru.top →
        t.lru.max_pointer = s.lru.max_pointer →
        t.lru.move_ratio = s.lru.move_ratio →
        t.lru.min_update_distance = s.lru.min_update_distance - 1 →
        t.lru.min_update_limit = s.lru.min_update_limit →
        t.lru.long_distance = s.lru.long_distance →
        FifoState c (kvs ++ [(k, v)]) (putFinish t k (kvs.length % c)) := by
      intro t ht1 ht2 ht3 ht4 ht5 ht6 ht7 ht8 ht9
      refine ⟨?_, ?_, ?_, ?_, ?_, ?_, ?_, ?_, ?_, ?_, ?_, ?_⟩
      · rw [putFinish_ring, ht3, hf.ringF, hminc, hlen1,
          Nat.min_eq_right (show c ≤ kvs.length + 1 by omega)]
      · rw [putFinish_top, ht4, ht5, hf.topF, hf.mpF, hlen1,
          succ_mod_char _ _ hc]
        by_cases h1 : kvs.length % c + 1 = c
        · rw [if_pos (show kvs.length % c + 1 > c - 1 by omega), if_pos h1]
        · rw [if_neg (show ¬ kvs.length % c + 1 > c - 1 by omega), if_neg h1]
      · rw [putFinish_mp, ht5]
        exact hf.mpF
      · rw [putFinish_ratio, ht6]
        exact hf.ratioF
      · rw [putFinish_mud, ht7, hf.mudF, hlen1]
        omega
      · rw [putFinish_limit, ht8]
        exact hf.limitF
      · rw [putFinish_long, ht9]
        exact hf.longF
      · rw [putFinish_entries, ht2, List.length_set, hf.entriesLen, hminc,
          hlen1, Nat.min_eq_right (show c ≤ kvs.length + 1 by omega)]
      · intro j hj
        rw [putFinish_entries, ht2]
        rw [hlen1, Nat.min_eq_right (show c ≤ kvs.length + 1 by omega)] at hj
        rw [hlen1]
        by_cases hjt : j = kvs.length % c
        · subst hjt
          rw [getElem?_set_self_of_lt _ (by omega)]
          have hlw := lastWriteIdx_window (kvs.length + 1) c kvs.length hc
            (by omega) (by omega)
          rw [hlw, getElem?_append_self, hf.topF]
          rfl
        · rw [List.getElem?_set_ne (fun hh => hjt hh.symm)]
          have hstable := lastWriteIdx_stable kvs.length c j hc (by omega)
            (by omega) hjt
          rw [hstable]
          have hlwlt : lastWriteIdx kvs.length c j < kvs.length :=
            lastWriteIdx_lt _ _ _ hc (by omega)
          rw [getElem?_append_left hlwlt]
          exact hf.entriesF j (by rw [hminc]; omega)
      · intro i p hip hwin
        rw [putFinish_mapping, ht1]
        rw [hlen1] at hwin
        have hlt := getElem?_some_lt hip
        rw [hlen1] at hlt
        rcases Nat.lt_or_ge i kvs.length with hin | hin
        · rw [getElem?_append_left hin] at hip
          have hpk := hnew i p hip
          have hppw : ¬ (p.1 = pw.1) := by
            intro hEq
            have := nodup_keys_index_eq hnd hip hpw hEq
            omega
          rw [mapLookup_mapInsert, if_neg hpk,
            mapLookup_mapRemove_ne _ _ _ hppw]
          exact hf.windowF i p hip (by omega)
        · have hieq : i = kvs.length := by omega
          subst hieq
          rw [getElem?_append_self] at hip
          have hp1 : p.1 = k := by
            have hq := Option.some.inj hip
            rw [← hq]
          rw [mapLookup_mapInsert, if_pos hp1]
      · intro i p hip hiold
        rw [putFinish_mapping, ht1]
        rw [hlen1] at hiold
        have hin : i < kvs.length := by omega
        rw [getElem?_append_left hin] at hip
        have hpk := hnew i p hip
        rw [mapLookup_mapInsert, if_neg hpk]
        by_cases hieq : i = kvs.length - c
        · subst hieq
          have hpq : p = pw := by
            rw [hip] at hpw
            exact Option.some.inj hpw
          rw [hpq]
          exact mapLookup_mapRemove_self _ _
        · have hppw : ¬ (p.1 = pw.1) := by
            intro hEq
            exact hieq (nodup_keys_index_eq hnd hip hpw hEq)
          rw [mapLookup_mapRemove_ne _ _ _ hppw]
          exact hf.oldF i p hip (by omega)
      · intro k2 hk2
        rw [putFinish_mapping, ht1]
        have hk2k : ¬ (k2 = k) := by
          intro hEq
          exact hk2 kvs.length (k, v) (getElem?_append_self kvs (k, v))
            hEq.symm
        rw [mapLookup_mapInsert, if_neg hk2k, mapLookup_mapRemove]
        split
        · rfl
        · apply hf.domF
          intro i p hip
          exact hk2 i p (by
            rw [getElem?_append_left (getElem?_some_lt hip)]
            exact hip)
    by_cases hg : s.lru.min_update_distance > s.lru.move_ratio / 100
    · rw [if_pos hg]
      refine ⟨_, rfl, ?_⟩
      apply hmain <;> rfl
    · rw [if_neg hg]
      refine ⟨_, rfl, ?_⟩
      apply hmain <;> first | rfl | (dsimp only; omega)

/-- The operation sequence of a pure put workload. -/
def putsOf {K V : Type} (kvs : List (K × V)) : List (CacheOp K V) :=
  kvs.map (fun p => CacheOp.putOp p.1 p.2)

theorem fifo_run {K V : Type} [DecidableEq K] {c : Nat} (hc : 1 ≤ c)
    {s0 : SwapCache K V} (h0 : SwapCache.new K V c = some s0)
    (kvs : List (K × V)) :
    (kvs.map Prod.fst).Nodup →
    ∃ s, runOps s0 (putsOf kvs) = some s ∧ FifoState c kvs s := by
  induction kvs using List.reverseRecOn with
  | nil =>
    intro hnd
    exact ⟨s0, rfl, fifo_new hc h0⟩
  | append_singleton kvs p ih =>
    intro hnd
    rw [List.map_append] at hnd
    obtain ⟨hnd1, hnd2, hdisj⟩ := List.nodup_append.1 hnd
    obtain ⟨s, hrun, hf⟩ := ih hnd1
    have hknew : ∀ (i : Nat) (q : K × V), kvs[i]? = some q → q.1 ≠ p.1 := by
      intro i q hi hq
      have hmem : p.1 ∈ kvs.map Prod.fst := by
        rw [← hq]
        exact List.mem_map.2 ⟨q, List.mem_iff_getElem?.2 ⟨i, hi⟩, rfl⟩
      exact hdisj hmem (by simp)
    obtain ⟨s', hput, hf'⟩ := fifo_put hc hf hnd1 p.1 p.2 hknew
    refine ⟨s', ?_, hf'⟩
    simp only [putsOf, List.map_append]
    rw [runOps_append]
    simp only [putsOf] at hrun
    simp only [hrun, List.map_cons, List.map_nil, runOps, runOp, hput]

/-- C6: FIFO eviction under pure puts.  For every capacity `c >= 1` and
every sequence of `c + m` puts of pairwise-distinct keys with no
intervening gets (the run completing without a panic), a subsequent `get`
on any of the first `m` inserted keys misses and leaves the state
untouched, while a `get` on any of the most recent `c` keys returns its
stored value. -/
theorem c6_fifo_eviction {K V : Type} [DecidableEq K] (c m : Nat)
    (hc : 1 ≤ c) (kvs : List (K × V)) (hlen : kvs.length = c + m)
    (hnd : (kvs.map Prod.fst).Nodup) (s0 s : SwapCache K V)
    (h0 : SwapCache.new K V c = some s0)
    (hrun : runOps s0 (putsOf kvs) = some s)
    (i : Nat) (p : K × V) (hi : kvs[i]? = some p) :
    (i < m → s.get p.1 = some (s, none)) ∧
    (m ≤ i → (s.get p.1).map (fun r => r.2) = some (some p.2)) := by
  obtain ⟨s1, hrun1, hf1⟩ := fifo_run hc h0 kvs hnd
  have hs1 : s1 = s := Option.some.inj (hrun1.symm.trans hrun)
  subst hs1
  constructor
  · intro him
    have hnone : mapLookup s1.mapping p.1 = none := hf1.oldF i p hi (by omega)
    simp only [SwapCache.get, SwapCache.update, hnone]
  · intro him
    have hic : kvs.length ≤ i + c := by omega
    have hlook : mapLookup s1.mapping p.1 = some (i % c) :=
      hf1.windowF i p hi hic
    have hiLt : i < kvs.length := getElem?_some_lt hi
    have hminc : min kvs.length c = c := Nat.min_eq_right (by omega)
    have hent : s1.entries[i % c]? = some ⟨p.1, p.2, i % c⟩ := by
      have he := hf1.entriesF (i % c)
        (by rw [hminc]; exact Nat.mod_lt _ (by omega))
      rw [lastWriteIdx_window kvs.length c i hc hiLt hic, hi] at he
      exact he
    have hreach : Reach K V c s1 :=
      runOps_reach (putsOf kvs) s0 (Reach.init s0 h0) hrun
    have hinv := reach_inv hreach
    have hfull : s1.lru.ring.length = c := by
      rw [hf1.ringF, List.length_range, hminc]
    obtain ⟨s2, its, hupd⟩ := update_success_full hinv hfull p.1 (i % c)
      ⟨p.1, p.2, i % c⟩ hlook hent
    simp only [SwapCache.get, hupd]
    rfl

/-- The state `SwapCache.new Nat Nat 1` produces. -/
def fifoWitBase : SwapCache Nat Nat :=
  { mapping := []
    lru := { ring := [], top := 0, max_pointer := 0, move_ratio := 50,
             min_update_distance := 0, min_update_limit := 1,
             long_distance := 0 }
    entries := [] }

/-- The state reached from `SwapCache.new Nat Nat 1` by `put 10 5` then
`put 11 6`: the second put evicts the first key. -/
def fifoWitState : SwapCache Nat Nat :=
  { mapping := [(11, 0)]
    lru := { ring := [0], top := 0, max_pointer := 0, move_ratio := 50,
             min_update_distance := 0, min_update_limit := 1,
             long_distance := 0 }
    entries := [⟨11, 6, 0⟩] }

theorem c6_fifo_eviction_witness :
    fifoWitState.get 10 = some (fifoWitState, none) ∧
    (fifoWitState.get 11).map (fun r => r.2) = some (some 6) := by
  have h0 : SwapCache.new Nat Nat 1 = some fifoWitBase := rfl
  have hrun : runOps fifoWitBase (putsOf [(10, 5), (11, 6)]) =
      some fifoWitState := rfl
  have h10 := c6_fifo_eviction 1 1 (le_refl 1) [(10, 5), (11, 6)] rfl
    (by decide) fifoWitBase fifoWitState h0 hrun 0 (10, 5) rfl
  have h11 := c6_fifo_eviction 1 1 (le_refl 1) [(10, 5), (11, 6)] rfl
    (by decide) fifoWitBase fifoWitState h0 hrun 1 (11, 6) rfl
  exact ⟨h10.1 Nat.zero_lt_one, h11.2 (le_refl 1)⟩
